import Mathlib

/-!
Orders-app: LRU order cache, ingestion pipeline and lookup handler.

A shallow embedding of

* `internal/cache/cache.go`   (`OrderCache`: `NewOrderCache`, `Set`, `Get`, `removeOldest`),
* `internal/kafka/consumer.go` (`Consumer.Run`, `Consumer.saveOrderWithRetry`),
* `internal/api/handlers.go`   (`OrderHandler.GetOrderByUID`),
* `internal/repository/postgres.go` (`DB.GetOrder`, the part deciding found / not found),

followed by the theorems about them.

Memory model of the cache.

`OrderCache.data` is a Go `map[string]*list.Element` and `OrderCache.eviction` a
`*list.List`.  Every `list.Element` is created by `PushFront` and holds a
`*cacheItem`.  The embedding keeps

* a `heap : List (cacheItem V)`: the cell at index `a` is the `cacheItem` reached
  through the element allocated at address `a` (cells are never reused, which is
  what garbage collection guarantees for cells that are still referenced);
* `data : List (String × Nat)`: the map, as an association list from identifiers
  to element addresses;
* `eviction : List Nat`: the addresses of the elements linked in the list, front
  (most recently used) first.

The map and the list are therefore independent structures, as in the source, and
their agreement is something that has to be proved.
-/

namespace cache

/-- The struct `cacheItem`: an identifier together with the order stored under it. -/
structure cacheItem (V : Type) where
  key : String
  value : V

/-- Go map read `m[k]` on a `map[string]*list.Element`: the comma-ok form. -/
def mapIndex (m : List (String × Nat)) (k : String) : Option Nat :=
  (m.find? (fun p => decide (p.1 = k))).map Prod.snd

/-- Go map write `m[k] = e`: any previous binding of `k` is replaced. -/
def mapAssign (m : List (String × Nat)) (k : String) (e : Nat) : List (String × Nat) :=
  (k, e) :: m.filter (fun p => decide (p.1 ≠ k))

/-- Go builtin `delete(m, k)`. -/
def mapDelete (m : List (String × Nat)) (k : String) : List (String × Nat) :=
  m.filter (fun p => decide (p.1 ≠ k))

/-- The method `(*list.List).MoveToFront(e)`: if `e` is an element of the list it is
unlinked and linked again at the front; otherwise the list is not modified. -/
def MoveToFront (l : List Nat) (e : Nat) : List Nat :=
  if e ∈ l then e :: l.erase e else l

/-- The method `(*list.List).Back()`: the last element, or nil for an empty list. -/
def Back (l : List Nat) : Option Nat :=
  l.getLast?

/-- The method `(*list.List).Remove(e)`: unlinks `e` if it is an element of the list. -/
def Remove (l : List Nat) (e : Nat) : List Nat :=
  l.erase e

/-- The struct `OrderCache` (the mutex is not part of the sequential state). -/
structure OrderCache (V : Type) where
  heap : List (cacheItem V)
  data : List (String × Nat)
  eviction : List Nat
  capacity : Int

/-- The constructor `NewOrderCache(capacity)`. -/
def NewOrderCache (V : Type) (capacity : Int) : OrderCache V :=
  { heap := [], data := [], eviction := [], capacity := capacity }

namespace OrderCache

variable {V : Type}

/-- The method `removeOldest`.  `Remove` returns the `*cacheItem` of the element,
the cell `c.heap[ele]`; the branch for an unallocated address is never taken from
a state the methods produce, where every linked element is allocated. -/
def removeOldest (c : OrderCache V) : OrderCache V :=
  if c.eviction.length = 0 then c
  else
    match Back c.eviction with
    | none => c
    | some ele =>
      match c.heap[ele]? with
      | none => { c with eviction := Remove c.eviction ele }
      | some item =>
        { c with eviction := Remove c.eviction ele, data := mapDelete c.data item.key }

/-- The method `Set`.  `PushFront` allocates the new element at the first unused
address, `c1.heap.length`. -/
def Set (c : OrderCache V) (orderUID : String) (order : V) : OrderCache V :=
  match mapIndex c.data orderUID with
  | some ele =>
    { c with
      eviction := MoveToFront c.eviction ele
      heap :=
        match c.heap[ele]? with
        | some item => c.heap.set ele { item with value := order }
        | none => c.heap }
  | none =>
    let c1 := if (c.eviction.length : Int) ≥ c.capacity then c.removeOldest else c
    let ele := c1.heap.length
    { c1 with
      heap := c1.heap ++ [{ key := orderUID, value := order }]
      eviction := ele :: c1.eviction
      data := mapAssign c1.data orderUID ele }

/-- The method `Get`: the Go result `(order, true)` is `some order`, the result
`(models.Order{}, false)` is `none`; the second component is the cache afterwards. -/
def Get (c : OrderCache V) (orderUID : String) : Option V × OrderCache V :=
  match mapIndex c.data orderUID with
  | some ele =>
    ((c.heap[ele]?).map cacheItem.value, { c with eviction := MoveToFront c.eviction ele })
  | none => (none, c)

/-- The test `_, ok := c.data[orderUID]`: is the identifier indexed (resident)? -/
def contains (c : OrderCache V) (orderUID : String) : Bool :=
  (mapIndex c.data orderUID).isSome

/-- The entries reachable from the recency list, front first: for every linked
element the identifier and the order held by its `cacheItem`. -/
def view (c : OrderCache V) : List (String × V) :=
  c.eviction.filterMap (fun a => (c.heap[a]?).map (fun it => (it.key, it.value)))

/-- The identifiers of the linked elements, most recently used first. -/
def keys (c : OrderCache V) : List String :=
  c.view.map Prod.fst

end OrderCache

/-- A call made by a client of the cache. -/
inductive Call (V : Type) where
  | set (orderUID : String) (order : V)
  | get (orderUID : String)

/-- The cache after one call. -/
def step {V : Type} (c : OrderCache V) : Call V → OrderCache V
  | .set orderUID order => c.Set orderUID order
  | .get orderUID => (c.Get orderUID).2

/-- The cache after a sequence of calls, executed one after the other. -/
def run {V : Type} (c : OrderCache V) (calls : List (Call V)) : OrderCache V :=
  calls.foldl step c

/-- The cache after `Set` has been called for every pair of the list, in order
(the warm-up loop of `main`). -/
def setAll {V : Type} (c : OrderCache V) (orders : List (String × V)) : OrderCache V :=
  orders.foldl (fun c p => c.Set p.1 p.2) c

/-- A cache together with a logical clock: `now` counts the calls made so far and
`last k` is the number of the latest call that touched identifier `k`
(`0` when no call has touched it).  A `Set` touches its identifier; a `Get`
touches its identifier when it is a hit. -/
structure Clocked (V : Type) where
  cache : OrderCache V
  now : Nat
  last : String → Nat

/-- One call on a clocked cache. -/
def tick {V : Type} (s : Clocked V) : Call V → Clocked V
  | .set orderUID order =>
    { cache := s.cache.Set orderUID order
      now := s.now + 1
      last := Function.update s.last orderUID (s.now + 1) }
  | .get orderUID =>
    { cache := (s.cache.Get orderUID).2
      now := s.now + 1
      last :=
        if (s.cache.Get orderUID).1.isSome then Function.update s.last orderUID (s.now + 1)
        else s.last }

/-- The number of the latest call of `calls` that touched `k` when the calls are
made on a freshly constructed cache of the given capacity. -/
def lastTouched (V : Type) (capacity : Int) (calls : List (Call V)) (k : String) : Nat :=
  (calls.foldl tick { cache := NewOrderCache V capacity, now := 0, last := fun _ => 0 }).last k

/-- The two ways in which a method of `OrderCache` takes `c.mtx`. -/
inductive LockMode where
  | Lock
  | RLock
deriving DecidableEq

/-- The exported methods of `OrderCache`. -/
inductive Method where
  | Set
  | Get
  | GetAll
deriving DecidableEq

/-- The first statement of each method: `Set` calls `c.mtx.Lock()`, `Get` and
`GetAll` call `c.mtx.RLock()`; each releases it by a deferred call on return. -/
def acquires : Method → LockMode
  | .Set => .Lock
  | .Get => .RLock
  | .GetAll => .RLock

/-- Modelled from the spec: the `sync.RWMutex` of the Go standard library, in the
spec's words a lock with an "exclusive" mode and a "shared/read" mode: two
callers can be inside their critical sections at the same time exactly when both
hold the shared lock. -/
def mayOverlap : LockMode → LockMode → Bool
  | .RLock, .RLock => true
  | _, _ => false

/-- The representation invariant of `OrderCache`: the map binds every identifier
at most once, no element is linked twice, every linked element has been
allocated, and the map binds `k` to `a` exactly when `a` is linked and holds a
`cacheItem` with key `k`. -/
structure WF {V : Type} (c : OrderCache V) : Prop where
  keys_nodup : (c.data.map Prod.fst).Nodup
  list_nodup : c.eviction.Nodup
  alloc : ∀ a ∈ c.eviction, a < c.heap.length
  agree : ∀ k a, (k, a) ∈ c.data ↔ (a ∈ c.eviction ∧ (c.heap[a]?).map cacheItem.key = some k)

/-- The invariant of a clocked cache: the cache is well formed, no touch lies in the
future, and the recency list is ordered by decreasing time of last touch. -/
structure ClockInv {V : Type} (s : Clocked V) : Prop where
  wf : WF s.cache
  le_now : ∀ k, s.last k ≤ s.now
  sorted : s.cache.keys.Pairwise (fun a b => s.last b < s.last a)

end cache

namespace models

/-- Modelled from the spec: the type `models.Order` is declared outside the given
sources.  A Record is "identified by a unique, immutable string identifier" and
is "always read and written as a single atomic unit"; the header, delivery,
payment and line items are not inspected by any function embedded here and are
kept as one uninterpreted field. -/
structure Order where
  OrderUID : String
  rest : String
deriving DecidableEq

/-- The zero value `models.Order{}`. -/
def Order.zero : Order :=
  { OrderUID := "", rest := "" }

end models

namespace storage

open models

/-- The durable store as `DB.GetOrder` sees it: the stored orders (one joined
record per row of table `orders`) and whether the query on `orders` can be
executed at all (connection, timeout). -/
structure DB where
  rows : List Order
  reachable : Bool

/-- The method `DB.GetOrder`: `Except.ok o` is the Go result `(o, nil)`.
When `Scan` reports `pgx.ErrNoRows` the result is `(models.Order{}, nil)`;
any other error of the first query is returned as an error.  Errors of the
three later queries are only logged. -/
def DB.GetOrder (s : DB) (uid : String) : Except String Order :=
  if s.reachable then
    match s.rows.find? (fun o => decide (o.OrderUID = uid)) with
    | none => .ok Order.zero
    | some order => .ok order
  else .error "не удалось получить заказ"

end storage

namespace api

open models cache storage

/-- What the handler writes to the `http.ResponseWriter`: the status code and,
for a JSON answer, the encoded order. -/
structure Response where
  status : Nat
  body : Option Order
deriving DecidableEq

/-- The constant `http.StatusOK`. -/
def StatusOK : Nat := 200

/-- The constant `http.StatusBadRequest`. -/
def StatusBadRequest : Nat := 400

/-- The constant `http.StatusNotFound`. -/
def StatusNotFound : Nat := 404

/-- The function `sendJSONResponse`: the first write sends status 200 and the
encoded order. -/
def sendJSONResponse (data : Order) : Response :=
  { status := StatusOK, body := some data }

/-- The method `OrderHandler.GetOrderByUID`, as a function of the store, the cache
and the URL parameter `order_uid`; it returns the response and the cache
afterwards. -/
def GetOrderByUID (db : DB) (c : OrderCache Order) (orderUID : String) :
    Response × OrderCache Order :=
  if orderUID = "" then ({ status := StatusBadRequest, body := none }, c)
  else
    match c.Get orderUID with
    | (some order, c1) => (sendJSONResponse order, c1)
    | (none, c1) =>
      match db.GetOrder orderUID with
      | .error _ => ({ status := StatusNotFound, body := none }, c1)
      | .ok order => (sendJSONResponse order, c1.Set orderUID order)

end api

namespace kafka

open models cache

/-- A `kafka.Message`: its offset and its payload. -/
structure Message where
  Offset : Nat
  Value : String
deriving DecidableEq

/-- The calls and waits of the consumer that the properties speak about. -/
inductive Event where
  | FetchMessage (m : Option Message)
  | SaveOrder (order : Order) (ok : Bool)
  | After (delay : Nat)
  | Done
  | CacheSet (orderUID : String) (order : Order)
  | CommitMessages (m : Message)
deriving DecidableEq

/-- The collaborators of the consumer.
* `Unmarshal v` is `json.Unmarshal(v, &order)`: `none` when it returns an error;
* `SaveOrder n order` tells whether call number `n` (from 0) of `c.db.SaveOrder`
  returns a nil error;
* `Done n` tells whether the `select` number `n` (from 0) of the backoff wait
  receives from `ctx.Done()` rather than from the timer. -/
structure Env where
  Unmarshal : String → Option Order
  SaveOrder : Nat → Order → Bool
  Done : Nat → Bool

/-- The state the consumer works on: the shared cache, the number of `SaveOrder`
calls and of backoff waits made so far, and the events so far, oldest first. -/
structure World where
  cache : OrderCache Order
  saves : Nat
  selects : Nat
  trace : List Event

/-- The errors `saveOrderWithRetry` returns: `ctx.Err()` or the error built by
`fmt.Errorf` after the loop. -/
inductive SaveError where
  | ctxErr
  | maxAttemptsExceeded
deriving DecidableEq

/-- The constant `maxAttempts` of `saveOrderWithRetry`. -/
def maxAttempts : Nat := 5

/-- The constant `time.Second`, in nanoseconds (the unit of `time.Duration`). -/
def Second : Nat := 1000000000

/-- The loop `for attempt := 1; attempt <= maxAttempts; attempt++` of
`saveOrderWithRetry`, entered with `remaining = maxAttempts + 1 - attempt`
iterations left before the loop condition fails.  `none` is the nil error.
The largest delay reached, `16 * Second`, is far below `2^63`, so the
multiplication on `time.Duration` does not overflow. -/
def retryLoop (env : Env) (order : Order) :
    Nat → Nat → Nat → World → Option SaveError × World
  | 0, _, _, w => (some .maxAttemptsExceeded, w)
  | remaining + 1, attempt, delay, w =>
    let ok := env.SaveOrder w.saves order
    let w1 : World := { w with saves := w.saves + 1, trace := w.trace ++ [.SaveOrder order ok] }
    if ok then
      (none,
        { w1 with
          cache := w1.cache.Set order.OrderUID order
          trace := w1.trace ++ [.CacheSet order.OrderUID order] })
    else if attempt = maxAttempts then (some .maxAttemptsExceeded, w1)
    else if env.Done w1.selects then
      (some .ctxErr, { w1 with selects := w1.selects + 1, trace := w1.trace ++ [.Done] })
    else
      retryLoop env order remaining (attempt + 1) (delay * 2)
        { w1 with selects := w1.selects + 1, trace := w1.trace ++ [.After delay] }

/-- The method `Consumer.saveOrderWithRetry`. -/
def saveOrderWithRetry (env : Env) (order : Order) (w : World) : Option SaveError × World :=
  retryLoop env order maxAttempts 1 Second w

/-- The method `Consumer.commitMessage` (an error of `CommitMessages` is only logged). -/
def commitMessage (m : Message) (w : World) : World :=
  { w with trace := w.trace ++ [.CommitMessages m] }

/-- The body of the loop of `Run` after `FetchMessage` has returned message `m`. -/
def handleMessage (env : Env) (m : Message) (w : World) : World :=
  match env.Unmarshal m.Value with
  | none => commitMessage m w
  | some order =>
    if order.OrderUID = "" then commitMessage m w
    else
      match saveOrderWithRetry env order w with
      | (some _, w1) => w1
      | (none, w1) => commitMessage m w1

/-- What one iteration of the loop of `Run` meets: the context is done at the top
`select`, or `FetchMessage` returns an error, or it returns a message. -/
inductive Iteration where
  | ctxDone
  | fetchError
  | fetched (m : Message)
deriving DecidableEq

/-- The method `Consumer.Run` along a finite script of iterations: the state when
`Run` returns, or when the script ends. -/
def Run (env : Env) : List Iteration → World → World
  | [], w => w
  | .ctxDone :: _, w => w
  | .fetchError :: rest, w =>
    Run env rest { w with trace := w.trace ++ [.FetchMessage none] }
  | .fetched m :: rest, w =>
    Run env rest (handleMessage env m { w with trace := w.trace ++ [.FetchMessage (some m)] })

/-- The events of a trace that are backoff waits, as their durations in order. -/
def waits : List Event → List Nat
  | [] => []
  | .After d :: t => d :: waits t
  | _ :: t => waits t

/-- The number of `SaveOrder` calls in a trace. -/
def attempts : List Event → Nat
  | [] => 0
  | .SaveOrder _ _ :: t => attempts t + 1
  | _ :: t => attempts t

/-- Events that neither make an order durable, nor write the cache, nor
acknowledge a message: failed `SaveOrder` calls, waits, cancellation, fetches. -/
def Event.quiet : Event → Bool
  | .SaveOrder _ ok => !ok
  | .CacheSet _ _ => false
  | .CommitMessages _ => false
  | _ => true

/-- A store in which every `SaveOrder` call fails, with a context that is never
cancelled; every payload decodes to the order `x`. -/
def alwaysFailing : Env :=
  { Unmarshal := fun _ => some { OrderUID := "x", rest := "r" }
    SaveOrder := fun _ _ => false
    Done := fun _ => false }

/-- A store whose first `SaveOrder` call fails and whose later calls succeed, with a
context that is never cancelled; every payload decodes to the order `x`. -/
def failingOnce : Env :=
  { Unmarshal := fun _ => some { OrderUID := "x", rest := "r" }
    SaveOrder := fun n _ => decide (1 ≤ n)
    Done := fun _ => false }

/-- The consumer before any message: an empty cache of the capacity `main` uses. -/
def World.init : World :=
  { cache := NewOrderCache Order 1000, saves := 0, selects := 0, trace := [] }

end kafka

namespace cache
variable {V : Type}

theorem mapIndex_eq_none_iff (m : List (String × Nat)) (k : String) :
    mapIndex m k = none ↔ k ∉ m.map Prod.fst := by
  induction m with
  | nil => simp [mapIndex]
  | cons p t ih =>
    by_cases h : p.1 = k
    · simp [mapIndex, List.find?_cons, h]
    · have h2 : ¬ k = p.1 := fun e => h e.symm
      simpa [mapIndex, List.find?_cons, h, h2] using ih

theorem mapIndex_eq_some_iff (m : List (String × Nat)) (hm : (m.map Prod.fst).Nodup)
    (k : String) (a : Nat) : mapIndex m k = some a ↔ (k, a) ∈ m := by
  induction m with
  | nil => simp [mapIndex]
  | cons p t ih =>
    obtain ⟨pk, pa⟩ := p
    simp only [List.map_cons, List.nodup_cons] at hm
    by_cases h : pk = k
    · subst h
      have hnot : ∀ b, (pk, b) ∉ t := fun b hb => hm.1 (List.mem_map.2 ⟨(pk, b), hb, rfl⟩)
      simp [mapIndex, List.find?_cons, hnot]
      exact eq_comm
    · have ih2 := ih hm.2
      have h2 : ¬ k = pk := fun e => h e.symm
      simp only [mapIndex, List.find?_cons, h, decide_False, List.mem_cons, Prod.mk.injEq, h2,
        false_and, false_or] at ih2 ⊢
      exact ih2

theorem filterMap_length_of_forall {α β : Type} (f : α → Option β) (l : List α)
    (h : ∀ a ∈ l, ∃ p, f a = some p) : (l.filterMap f).length = l.length := by
  induction l with
  | nil => rfl
  | cons a t ih =>
    obtain ⟨p, hp⟩ := h a (List.mem_cons_self a t)
    simp [List.filterMap_cons, hp, ih (fun b hb => h b (List.mem_cons_of_mem a hb))]

theorem filterMap_filter_key {β : Type} (f : Nat → Option (String × β)) (l : List Nat)
    (a : Nat) (k : String)
    (h : ∀ b ∈ l, ∀ p, f b = some p → (p.1 = k ↔ b = a)) :
    (l.filter (fun b => decide (b ≠ a))).filterMap f
      = (l.filterMap f).filter (fun p => decide (p.1 ≠ k)) := by
  induction l with
  | nil => rfl
  | cons b t ih =>
    have iht := ih (fun c hc => h c (List.mem_cons_of_mem b hc))
    have hb := h b (List.mem_cons_self b t)
    cases hfb : f b with
    | none =>
      by_cases hba : b = a
      · rw [List.filter_cons_of_neg (by simpa using hba), List.filterMap_cons_none hfb]
        exact iht
      · rw [List.filter_cons_of_pos (by simpa using hba), List.filterMap_cons_none hfb,
          List.filterMap_cons_none hfb]
        exact iht
    | some p =>
      have hp := hb p hfb
      by_cases hba : b = a
      · have hpk : p.1 = k := hp.2 hba
        rw [List.filter_cons_of_neg (by simpa using hba), List.filterMap_cons_some hfb,
          List.filter_cons_of_neg (by simpa using hpk)]
        exact iht
      · have hpk : ¬ p.1 = k := fun e => hba (hp.1 e)
        rw [List.filter_cons_of_pos (by simpa using hba), List.filterMap_cons_some hfb,
          List.filterMap_cons_some hfb, List.filter_cons_of_pos (by simpa using hpk), iht]

theorem filterMap_nodup_of_inj {α β : Type} (g : α → Option β) (l : List α) (hl : l.Nodup)
    (h : ∀ a ∈ l, ∀ b ∈ l, ∀ k, g a = some k → g b = some k → a = b) :
    (l.filterMap g).Nodup := by
  induction l with
  | nil => simp
  | cons a t ih =>
    rw [List.nodup_cons] at hl
    have iht := ih hl.2 (fun x hx y hy k hxk hyk =>
      h x (List.mem_cons_of_mem a hx) y (List.mem_cons_of_mem a hy) k hxk hyk)
    cases hga : g a with
    | none => rw [List.filterMap_cons_none hga]; exact iht
    | some k =>
      rw [List.filterMap_cons_some hga, List.nodup_cons]
      refine ⟨?_, iht⟩
      intro hk
      obtain ⟨b, hb, hgb⟩ := List.mem_filterMap.1 hk
      have := h a (List.mem_cons_self a t) b (List.mem_cons_of_mem a hb) k hga hgb
      exact hl.1 (this ▸ hb)

namespace WF

variable {c : OrderCache V}

theorem deref (h : WF c) {a : Nat} (ha : a ∈ c.eviction) :
    ∃ it, c.heap[a]? = some it ∧ (it.key, a) ∈ c.data := by
  have hlt := h.alloc a ha
  refine ⟨c.heap[a], List.getElem?_eq_getElem hlt, ?_⟩
  rw [h.agree]
  exact ⟨ha, by simp [List.getElem?_eq_getElem hlt]⟩

theorem data_unique (h : WF c) {k : String} {a b : Nat} (ha : (k, a) ∈ c.data)
    (hb : (k, b) ∈ c.data) : a = b := by
  have h1 := (mapIndex_eq_some_iff c.data h.keys_nodup k a).2 ha
  have h2 := (mapIndex_eq_some_iff c.data h.keys_nodup k b).2 hb
  rw [h1] at h2
  exact Option.some.inj h2

theorem inj (h : WF c) {a b : Nat} (ha : a ∈ c.eviction) (hb : b ∈ c.eviction) {k : String}
    (hka : (c.heap[a]?).map cacheItem.key = some k)
    (hkb : (c.heap[b]?).map cacheItem.key = some k) : a = b :=
  h.data_unique ((h.agree k a).2 ⟨ha, hka⟩) ((h.agree k b).2 ⟨hb, hkb⟩)

theorem mem_view (_h : WF c) (k : String) (v : V) :
    (k, v) ∈ c.view ↔ ∃ a ∈ c.eviction, c.heap[a]? = some { key := k, value := v } := by
  unfold OrderCache.view
  rw [List.mem_filterMap]
  constructor
  · rintro ⟨a, ha, hf⟩
    refine ⟨a, ha, ?_⟩
    cases hd : c.heap[a]? with
    | none => simp [hd] at hf
    | some it =>
      obtain ⟨ik, iv⟩ := it
      simp only [hd, Option.map_some', Option.some.injEq, Prod.mk.injEq] at hf
      rw [hf.1, hf.2]
  · rintro ⟨a, ha, hd⟩
    exact ⟨a, ha, by simp [hd]⟩

theorem mem_keys (h : WF c) (k : String) :
    k ∈ c.keys ↔ ∃ a, (k, a) ∈ c.data := by
  unfold OrderCache.keys
  rw [List.mem_map]
  constructor
  · rintro ⟨⟨k1, v⟩, hp, rfl⟩
    obtain ⟨a, ha, hd⟩ := (h.mem_view k1 v).1 hp
    exact ⟨a, (h.agree k1 a).2 ⟨ha, by simp [hd]⟩⟩
  · rintro ⟨a, hka⟩
    obtain ⟨ha, hd⟩ := (h.agree k a).1 hka
    cases hh : c.heap[a]? with
    | none => simp [hh] at hd
    | some it =>
      obtain ⟨ik, iv⟩ := it
      simp only [hh, Option.map_some', Option.some.injEq] at hd
      subst hd
      exact ⟨(ik, iv), (h.mem_view ik iv).2 ⟨a, ha, hh⟩, rfl⟩

theorem mem_keys_iff_data (h : WF c) (k : String) :
    k ∈ c.keys ↔ k ∈ c.data.map Prod.fst := by
  rw [h.mem_keys, List.mem_map]
  constructor
  · rintro ⟨a, ha⟩
    exact ⟨(k, a), ha, rfl⟩
  · rintro ⟨⟨k1, a⟩, hp, rfl⟩
    exact ⟨a, hp⟩

theorem contains_iff (h : WF c) (k : String) : c.contains k = true ↔ k ∈ c.keys := by
  rw [h.mem_keys_iff_data]
  unfold OrderCache.contains
  cases hm : mapIndex c.data k with
  | none => simpa using (mapIndex_eq_none_iff c.data k).1 hm
  | some a =>
    have := (mapIndex_eq_some_iff c.data h.keys_nodup k a).1 hm
    simpa using ⟨a, this⟩

theorem mapIndex_none (h : WF c) {k : String} (hk : k ∉ c.keys) : mapIndex c.data k = none := by
  rw [mapIndex_eq_none_iff, ← h.mem_keys_iff_data]
  exact hk

theorem view_length (h : WF c) : c.view.length = c.eviction.length := by
  unfold OrderCache.view
  apply filterMap_length_of_forall
  intro a ha
  obtain ⟨it, hit, _⟩ := h.deref ha
  exact ⟨_, by rw [hit]; rfl⟩

theorem keys_eq (c : OrderCache V) :
    c.keys = c.eviction.filterMap (fun a => (c.heap[a]?).map cacheItem.key) := by
  unfold OrderCache.keys OrderCache.view
  rw [List.map_filterMap]
  apply List.filterMap_congr
  intro a _
  cases c.heap[a]? <;> rfl

theorem nodup_keys (h : WF c) : c.keys.Nodup := by
  rw [keys_eq]
  apply filterMap_nodup_of_inj _ _ h.list_nodup
  intro a ha b hb k hka hkb
  exact h.inj ha hb hka hkb

theorem data_length (h : WF c) : c.data.length = c.eviction.length := by
  have hd : c.data.Nodup := List.Nodup.of_map _ h.keys_nodup
  have hs : (c.data.map Prod.snd).Nodup := by
    apply List.Nodup.map_on _ hd
    rintro ⟨k1, a1⟩ h1 ⟨k2, a2⟩ h2 he
    simp only at he
    subst he
    have e1 := ((h.agree k1 a1).1 h1).2
    have e2 := ((h.agree k2 a1).1 h2).2
    rw [e1] at e2
    rw [Option.some.inj e2]
  have hp : (c.data.map Prod.snd).Perm c.eviction := by
    rw [List.perm_ext_iff_of_nodup hs h.list_nodup]
    intro a
    rw [List.mem_map]
    constructor
    · rintro ⟨⟨k, a1⟩, hp, rfl⟩
      exact ((h.agree k a1).1 hp).1
    · intro ha
      obtain ⟨it, _, hit⟩ := h.deref ha
      exact ⟨_, hit, rfl⟩
  simpa using hp.length_eq

end WF

namespace OrderCache

theorem removeOldest_nil {c : OrderCache V} (h : c.eviction = []) : c.removeOldest = c := by
  unfold removeOldest
  simp [h]

theorem removeOldest_spec {c : OrderCache V} (h : WF c) :
    WF c.removeOldest ∧ c.removeOldest.view = c.view.dropLast
      ∧ c.removeOldest.heap = c.heap ∧ c.removeOldest.capacity = c.capacity := by
  rcases List.eq_nil_or_concat c.eviction with hnil | ⟨l, a, hl0⟩
  · rw [removeOldest_nil hnil]
    refine ⟨h, ?_, rfl, rfl⟩
    simp [view, hnil]
  · have hl : c.eviction = l ++ [a] := by rw [hl0, List.concat_eq_append]
    have ha : a ∈ c.eviction := by rw [hl]; simp
    obtain ⟨item, hitem, hdata⟩ := h.deref ha
    have hnd : (l ++ [a]).Nodup := hl ▸ h.list_nodup
    have hal : a ∉ l := by
      intro hmem
      have := List.disjoint_of_nodup_append hnd hmem
      simp at this
    have hlnd : l.Nodup := (List.nodup_append.1 hnd).1
    have herase : Remove c.eviction a = l := by
      unfold Remove
      rw [hl, List.erase_append_right _ hal]
      simp
    have hback : Back c.eviction = some a := by
      unfold Back
      rw [hl]
      simp
    have hlen : ¬ c.eviction.length = 0 := by
      rw [hl]
      simp
    have hrem : c.removeOldest
        = { c with eviction := l, data := mapDelete c.data item.key } := by
      unfold removeOldest
      simp only [hlen, if_false, hback, hitem, herase]
    rw [hrem]
    refine ⟨⟨?_, hlnd, ?_, ?_⟩, ?_, rfl, rfl⟩
    · exact h.keys_nodup.sublist ((List.filter_sublist _).map _)
    · intro b hb
      have hb1 : b ∈ l := hb
      exact h.alloc b (by rw [hl]; exact List.mem_append_left _ hb1)
    · intro k b
      show (k, b) ∈ mapDelete c.data item.key ↔ b ∈ l ∧ (c.heap[b]?).map cacheItem.key = some k
      unfold mapDelete
      rw [List.mem_filter, h.agree, hl]
      constructor
      · rintro ⟨⟨hb, hk⟩, hne⟩
        refine ⟨?_, hk⟩
        rcases List.mem_append.1 hb with h1 | h1
        · exact h1
        · exfalso
          have hba : b = a := by simpa using h1
          subst hba
          rw [hitem] at hk
          simp at hk hne
          exact hne hk.symm
      · rintro ⟨hb, hk⟩
        refine ⟨⟨List.mem_append_left _ hb, hk⟩, ?_⟩
        have hne : ¬ k = item.key := by
          intro he
          have hka : (c.heap[a]?).map cacheItem.key = some k := by rw [hitem, he]; rfl
          have := h.inj (hl ▸ List.mem_append_left _ hb) ha hk hka
          exact hal (this ▸ hb)
        simpa using hne
    · show List.filterMap _ l = (List.filterMap _ c.eviction).dropLast
      rw [hl, List.filterMap_append]
      simp [hitem]

theorem push_spec {c : OrderCache V} (h : WF c) {k : String} (hk : k ∉ c.keys) (v : V) :
    WF ({ c with
          heap := c.heap ++ [{ key := k, value := v }]
          eviction := c.heap.length :: c.eviction
          data := mapAssign c.data k c.heap.length } : OrderCache V)
      ∧ ({ c with
          heap := c.heap ++ [{ key := k, value := v }]
          eviction := c.heap.length :: c.eviction
          data := mapAssign c.data k c.heap.length } : OrderCache V).view = (k, v) :: c.view := by
  have hfresh : c.heap.length ∉ c.eviction := fun hm => lt_irrefl _ (h.alloc _ hm)
  have hold : ∀ b ∈ c.eviction, (c.heap ++ [({ key := k, value := v } : cacheItem V)])[b]?
      = c.heap[b]? := fun b hb => List.getElem?_append_left (h.alloc b hb)
  have hnew : (c.heap ++ [({ key := k, value := v } : cacheItem V)])[c.heap.length]?
      = some { key := k, value := v } := by simp
  refine ⟨⟨?_, ?_, ?_, ?_⟩, ?_⟩
  · show ((mapAssign c.data k c.heap.length).map Prod.fst).Nodup
    unfold mapAssign
    rw [List.map_cons, List.nodup_cons]
    refine ⟨?_, h.keys_nodup.sublist ((List.filter_sublist _).map _)⟩
    intro hm
    obtain ⟨⟨k1, a1⟩, hp, he⟩ := List.mem_map.1 hm
    have := (List.mem_filter.1 hp).2
    simp at this he
    exact this he
  · show (c.heap.length :: c.eviction).Nodup
    exact List.nodup_cons.2 ⟨hfresh, h.list_nodup⟩
  · intro b hb
    show b < (c.heap ++ [_]).length
    rw [List.length_append]
    rcases List.mem_cons.1 hb with h1 | h1
    · subst h1; simp
    · exact Nat.lt_add_right _ (h.alloc b h1)
  · intro k1 b
    show (k1, b) ∈ mapAssign c.data k c.heap.length
      ↔ b ∈ c.heap.length :: c.eviction ∧ ((c.heap ++ [_])[b]?).map cacheItem.key = some k1
    unfold mapAssign
    rw [List.mem_cons, List.mem_cons, List.mem_filter]
    constructor
    · rintro (he | ⟨hm, _⟩)
      · simp only [Prod.mk.injEq] at he
        rw [he.1, he.2, hnew]
        exact ⟨Or.inl rfl, rfl⟩
      · obtain ⟨hb, hkb⟩ := (h.agree k1 b).1 hm
        exact ⟨Or.inr hb, by rw [hold b hb]; exact hkb⟩
    · rintro ⟨hb | hb, hkb⟩
      · left
        subst hb
        rw [hnew] at hkb
        simp at hkb
        rw [hkb]
      · right
        rw [hold b hb] at hkb
        have hm := (h.agree k1 b).2 ⟨hb, hkb⟩
        refine ⟨hm, ?_⟩
        have : ¬ k1 = k := by
          intro he
          exact hk ((h.mem_keys k).2 ⟨b, he ▸ hm⟩)
        simpa using this
  · show List.filterMap _ (c.heap.length :: c.eviction) = (k, v) :: c.view
    rw [List.filterMap_cons_some (by rw [hnew]; rfl)]
    congr 1
    apply List.filterMap_congr
    intro b hb
    rw [hold b hb]

theorem touch_spec {c : OrderCache V} (h : WF c) {k : String} {a : Nat}
    (hka : (k, a) ∈ c.data) (heap1 : List (cacheItem V)) (v1 : V)
    (hlen : heap1.length = c.heap.length)
    (hother : ∀ b, b ≠ a → heap1[b]? = c.heap[b]?)
    (hself : heap1[a]? = some { key := k, value := v1 }) :
    WF ({ c with eviction := MoveToFront c.eviction a, heap := heap1 } : OrderCache V)
      ∧ ({ c with eviction := MoveToFront c.eviction a, heap := heap1 } : OrderCache V).view
          = (k, v1) :: c.view.filter (fun p => decide (p.1 ≠ k)) := by
  obtain ⟨ha, hkey⟩ := (h.agree k a).1 hka
  have hmove : MoveToFront c.eviction a = a :: c.eviction.filter (fun b => decide (b ≠ a)) := by
    unfold MoveToFront
    rw [if_pos ha, h.list_nodup.erase_eq_filter]
    congr 1
    apply List.filter_congr
    intro b _
    by_cases hba : b = a <;> simp [hba]
  have hkeys : ∀ b : Nat, (heap1[b]?).map cacheItem.key = (c.heap[b]?).map cacheItem.key := by
    intro b
    by_cases hb : b = a
    · subst hb
      rw [hself, hkey]
      rfl
    · rw [hother b hb]
  rw [hmove]
  refine ⟨⟨h.keys_nodup, ?_, ?_, ?_⟩, ?_⟩
  · show (a :: c.eviction.filter (fun b => decide (b ≠ a))).Nodup
    rw [List.nodup_cons]
    refine ⟨?_, h.list_nodup.sublist (List.filter_sublist _)⟩
    intro hm
    have := (List.mem_filter.1 hm).2
    simp at this
  · intro b hb
    show b < heap1.length
    rw [hlen]
    rcases List.mem_cons.1 hb with h1 | h1
    · exact h1 ▸ h.alloc a ha
    · exact h.alloc b (List.mem_filter.1 h1).1
  · intro k1 b
    show (k1, b) ∈ c.data ↔ b ∈ a :: c.eviction.filter (fun b => decide (b ≠ a))
      ∧ (heap1[b]?).map cacheItem.key = some k1
    rw [hkeys, h.agree, List.mem_cons, List.mem_filter]
    constructor
    · rintro ⟨hb, hk1⟩
      refine ⟨?_, hk1⟩
      by_cases hba : b = a
      · exact Or.inl hba
      · exact Or.inr ⟨hb, by simpa using hba⟩
    · rintro ⟨hb | hb, hk1⟩
      · exact ⟨hb ▸ ha, hk1⟩
      · exact ⟨hb.1, hk1⟩
  · show List.filterMap (fun b => (heap1[b]?).map (fun it => (it.key, it.value)))
        (a :: c.eviction.filter (fun b => decide (b ≠ a)))
      = (k, v1) :: c.view.filter (fun p => decide (p.1 ≠ k))
    rw [List.filterMap_cons_some (by rw [hself]; rfl)]
    congr 1
    have hcongr : List.filterMap (fun b => (heap1[b]?).map (fun it => (it.key, it.value)))
          (c.eviction.filter (fun b => decide (b ≠ a)))
        = List.filterMap (fun b => (c.heap[b]?).map (fun it => (it.key, it.value)))
          (c.eviction.filter (fun b => decide (b ≠ a))) := by
      apply List.filterMap_congr
      intro b hb
      have hba : b ≠ a := by simpa using (List.mem_filter.1 hb).2
      rw [hother b hba]
    rw [hcongr]
    unfold view
    apply filterMap_filter_key
    intro b hb p hp
    cases hd : c.heap[b]? with
    | none => simp [hd] at hp
    | some it =>
      simp only [hd, Option.map_some', Option.some.injEq] at hp
      subst hp
      constructor
      · intro hk1
        exact h.inj hb ha (by rw [hd]; simp at hk1; simp [hk1]) hkey
      · intro hba
        subst hba
        rw [hd] at hkey
        simpa using hkey

theorem Set_hit {c : OrderCache V} (h : WF c) {k : String} (hk : k ∈ c.keys) (v : V) :
    WF (c.Set k v) ∧ (c.Set k v).view = (k, v) :: c.view.filter (fun p => decide (p.1 ≠ k))
      ∧ (c.Set k v).capacity = c.capacity ∧ (c.Set k v).data = c.data := by
  obtain ⟨a, hka⟩ := (h.mem_keys k).1 hk
  have hidx := (mapIndex_eq_some_iff c.data h.keys_nodup k a).2 hka
  obtain ⟨ha, hkey⟩ := (h.agree k a).1 hka
  have hlt := h.alloc a ha
  obtain ⟨item, hitem, _⟩ := h.deref ha
  have hik : item.key = k := by rw [hitem] at hkey; simpa using hkey
  have hset : c.Set k v
      = { c with eviction := MoveToFront c.eviction a
                 heap := c.heap.set a { item with value := v } } := by
    unfold Set
    simp only [hidx, hitem]
  rw [hset]
  have := touch_spec h hka (c.heap.set a { item with value := v }) v (by simp)
    (fun b hb => by rw [List.getElem?_set_ne (Ne.symm hb)])
    (by rw [List.getElem?_set_self hlt, hik])
  exact ⟨this.1, this.2, rfl, rfl⟩

theorem Set_miss {c : OrderCache V} (h : WF c) {k : String} (hk : k ∉ c.keys) (v : V) :
    WF (c.Set k v)
      ∧ (c.Set k v).view
          = (k, v) :: (if (c.eviction.length : Int) ≥ c.capacity then c.view.dropLast else c.view)
      ∧ (c.Set k v).capacity = c.capacity := by
  have hidx := h.mapIndex_none hk
  by_cases hfull : (c.eviction.length : Int) ≥ c.capacity
  · obtain ⟨hwf, hview, hheap, hcap⟩ := removeOldest_spec h
    have hk1 : k ∉ c.removeOldest.keys := by
      intro hm
      unfold keys at hm
      rw [hview] at hm
      exact hk ((List.dropLast_sublist _).map _ |>.subset hm)
    have hset : c.Set k v = { c.removeOldest with
        heap := c.removeOldest.heap ++ [{ key := k, value := v }]
        eviction := c.removeOldest.heap.length :: c.removeOldest.eviction
        data := mapAssign c.removeOldest.data k c.removeOldest.heap.length } := by
      unfold Set
      simp only [hidx, hfull, if_true]
    rw [hset, if_pos hfull]
    have := push_spec hwf hk1 v
    exact ⟨this.1, by rw [this.2, hview], hcap⟩
  · have hset : c.Set k v = { c with
        heap := c.heap ++ [{ key := k, value := v }]
        eviction := c.heap.length :: c.eviction
        data := mapAssign c.data k c.heap.length } := by
      unfold Set
      simp only [hidx, hfull, if_false]
    rw [hset, if_neg hfull]
    have := push_spec h hk v
    exact ⟨this.1, this.2, rfl⟩

theorem Get_hit {c : OrderCache V} (h : WF c) {k : String} {v : V} (hkv : (k, v) ∈ c.view) :
    (c.Get k).1 = some v ∧ WF (c.Get k).2
      ∧ (c.Get k).2.view = (k, v) :: c.view.filter (fun p => decide (p.1 ≠ k))
      ∧ (c.Get k).2.capacity = c.capacity ∧ (c.Get k).2.data = c.data := by
  obtain ⟨a, ha, hd⟩ := (h.mem_view k v).1 hkv
  have hka : (k, a) ∈ c.data := (h.agree k a).2 ⟨ha, by rw [hd]; rfl⟩
  have hidx := (mapIndex_eq_some_iff c.data h.keys_nodup k a).2 hka
  have hget : c.Get k = (some v, { c with eviction := MoveToFront c.eviction a, heap := c.heap }) := by
    unfold Get
    simp only [hidx, hd]
    rfl
  rw [hget]
  have := touch_spec h hka c.heap v rfl (fun _ _ => rfl) hd
  exact ⟨rfl, this.1, this.2, rfl, rfl⟩

theorem Get_miss {c : OrderCache V} (h : WF c) {k : String} (hk : k ∉ c.keys) :
    c.Get k = (none, c) := by
  unfold Get
  rw [h.mapIndex_none hk]

end OrderCache

theorem WF_New (V : Type) (capacity : Int) : WF (NewOrderCache V capacity) :=
  ⟨by simp [NewOrderCache], by simp [NewOrderCache], by simp [NewOrderCache],
    by simp [NewOrderCache]⟩

theorem exists_view_of_mem_keys {c : OrderCache V} {k : String} (hk : k ∈ c.keys) :
    ∃ v, (k, v) ∈ c.view := by
  obtain ⟨⟨k1, v⟩, hp, rfl⟩ := List.mem_map.1 hk
  exact ⟨v, hp⟩

theorem WF_Set {c : OrderCache V} (h : WF c) (k : String) (v : V) :
    WF (c.Set k v) ∧ (c.Set k v).capacity = c.capacity := by
  by_cases hk : k ∈ c.keys
  · exact ⟨(OrderCache.Set_hit h hk v).1, (OrderCache.Set_hit h hk v).2.2.1⟩
  · exact ⟨(OrderCache.Set_miss h hk v).1, (OrderCache.Set_miss h hk v).2.2⟩

theorem WF_Get {c : OrderCache V} (h : WF c) (k : String) :
    WF (c.Get k).2 ∧ (c.Get k).2.capacity = c.capacity
      ∧ (c.Get k).2.data = c.data := by
  by_cases hk : k ∈ c.keys
  · obtain ⟨v, hv⟩ := exists_view_of_mem_keys hk
    have := OrderCache.Get_hit h hv
    exact ⟨this.2.1, this.2.2.2.1, this.2.2.2.2⟩
  · rw [OrderCache.Get_miss h hk]
    exact ⟨h, rfl, rfl⟩

theorem WF_step {c : OrderCache V} (h : WF c) (call : Call V) :
    WF (step c call) ∧ (step c call).capacity = c.capacity := by
  cases call with
  | set k v => exact WF_Set h k v
  | get k => exact ⟨(WF_Get h k).1, (WF_Get h k).2.1⟩

theorem WF_run {c : OrderCache V} (h : WF c) (calls : List (Call V)) :
    WF (run c calls) ∧ (run c calls).capacity = c.capacity := by
  induction calls generalizing c with
  | nil => exact ⟨h, rfl⟩
  | cons call t ih =>
    have hs := WF_step h call
    have := ih hs.1
    exact ⟨this.1, this.2.trans hs.2⟩

theorem WF_fresh_run (C : Int) (calls : List (Call V)) :
    WF (run (NewOrderCache V C) calls) ∧ (run (NewOrderCache V C) calls).capacity = C :=
  WF_run (WF_New V C) calls

theorem run_append (c : OrderCache V) (l1 l2 : List (Call V)) :
    run c (l1 ++ l2) = run (run c l1) l2 := by
  unfold run
  rw [List.foldl_append]

theorem len_Set_le {c : OrderCache V} (h : WF c) (hC : 1 ≤ c.capacity)
    (hlen : (c.eviction.length : Int) ≤ c.capacity) (k : String) (v : V) :
    ((c.Set k v).eviction.length : Int) ≤ c.capacity := by
  by_cases hk : k ∈ c.keys
  · obtain ⟨hwf, _, _, hdata⟩ := OrderCache.Set_hit h hk v
    rw [← hwf.data_length, hdata, h.data_length]
    exact hlen
  · obtain ⟨hwf, hview, _⟩ := OrderCache.Set_miss h hk v
    rw [← hwf.view_length, hview]
    by_cases hfull : (c.eviction.length : Int) ≥ c.capacity
    · rw [if_pos hfull, List.length_cons, List.length_dropLast, h.view_length]
      omega
    · rw [if_neg hfull, List.length_cons, h.view_length]
      push_cast
      omega

theorem len_step_le {c : OrderCache V} (h : WF c) (hC : 1 ≤ c.capacity)
    (hlen : (c.eviction.length : Int) ≤ c.capacity) (call : Call V) :
    ((step c call).eviction.length : Int) ≤ c.capacity := by
  cases call with
  | set k v => exact len_Set_le h hC hlen k v
  | get k =>
    obtain ⟨hwf, _, hdata⟩ := WF_Get h k
    show (((c.Get k).2.eviction.length : Nat) : Int) ≤ c.capacity
    rw [← hwf.data_length, hdata, h.data_length]
    exact hlen

theorem len_run_le {c : OrderCache V} (h : WF c) (hC : 1 ≤ c.capacity)
    (hlen : (c.eviction.length : Int) ≤ c.capacity) (calls : List (Call V)) :
    ((run c calls).eviction.length : Int) ≤ c.capacity := by
  induction calls generalizing c with
  | nil => exact hlen
  | cons call t ih =>
    have hs := WF_step h call
    have hl := len_step_le h hC hlen call
    have := ih hs.1 (hs.2 ▸ hC) (hs.2 ▸ hl)
    rw [hs.2] at this
    exact this

/-- C3. For every capacity `C ≥ 1` and every finite sequence of `Set` and `Get`
calls on a freshly constructed cache, after each call (that is, after every
prefix of the sequence) the recency list and the index map hold at most `C`
entries. -/
theorem C3_size_le_capacity (C : Int) (hC : 1 ≤ C) (calls : List (Call V)) (n : Nat) :
    ((run (NewOrderCache V C) (calls.take n)).eviction.length : Int) ≤ C
      ∧ ((run (NewOrderCache V C) (calls.take n)).data.length : Int) ≤ C := by
  have hwf := WF_fresh_run (V := V) C (calls.take n)
  have := len_run_le (WF_New V C) (c := NewOrderCache V C) hC
    (by simp [NewOrderCache]; omega) (calls.take n)
  have h2 : (NewOrderCache V C).capacity = C := rfl
  rw [h2] at this
  exact ⟨this, by rw [hwf.1.data_length]; exact this⟩

theorem C3_size_le_capacity_witness :
    (1 : Int) ≤ 2
      ∧ ((run (NewOrderCache Nat 2)
            ([Call.set "a" 1, Call.set "b" 2, Call.get "a", Call.set "c" 3].take 4)).eviction.length
            : Int) ≤ 2
      ∧ ((run (NewOrderCache Nat 2)
            ([Call.set "a" 1, Call.set "b" 2, Call.get "a", Call.set "c" 3].take 4)).data.length
            : Int) ≤ 2 :=
  ⟨by decide, C3_size_le_capacity 2 (by decide) _ 4⟩

/-- C4. After every finite sequence of `Set` and `Get` calls on a freshly
constructed cache (of any capacity) the index map and the recency list are in
bijection: the map binds no identifier twice; every binding `k ↦ a` of the map
points to an element that occurs exactly once in the list and whose stored key
is `k`; every element of the list holds a `cacheItem` whose key is bound in the
map to that very element; no key is held by two elements of the list; the map
size equals the list length. -/
theorem C4_index_list_bijection (C : Int) (calls : List (Call V)) :
    ((run (NewOrderCache V C) calls).data.map Prod.fst).Nodup
      ∧ (∀ k a, mapIndex (run (NewOrderCache V C) calls).data k = some a →
          (run (NewOrderCache V C) calls).eviction.count a = 1
            ∧ ((run (NewOrderCache V C) calls).heap[a]?).map cacheItem.key = some k)
      ∧ (∀ a ∈ (run (NewOrderCache V C) calls).eviction,
          ∃ it, (run (NewOrderCache V C) calls).heap[a]? = some it
            ∧ mapIndex (run (NewOrderCache V C) calls).data it.key = some a)
      ∧ ((run (NewOrderCache V C) calls).eviction.map
          (fun a => ((run (NewOrderCache V C) calls).heap[a]?).map cacheItem.key)).Nodup
      ∧ (run (NewOrderCache V C) calls).data.length
          = (run (NewOrderCache V C) calls).eviction.length := by
  have h := (WF_fresh_run (V := V) C calls).1
  refine ⟨h.keys_nodup, ?_, ?_, ?_, h.data_length⟩
  · intro k a hidx
    have hka := (mapIndex_eq_some_iff _ h.keys_nodup k a).1 hidx
    obtain ⟨ha, hkey⟩ := (h.agree k a).1 hka
    exact ⟨List.count_eq_one_of_mem h.list_nodup ha, hkey⟩
  · intro a ha
    obtain ⟨it, hit, hd⟩ := h.deref ha
    exact ⟨it, hit, (mapIndex_eq_some_iff _ h.keys_nodup _ a).2 hd⟩
  · apply List.Nodup.map_on _ h.list_nodup
    intro a ha b hb hab
    obtain ⟨it, hit, _⟩ := h.deref ha
    have hka : ((run (NewOrderCache V C) calls).heap[a]?).map cacheItem.key = some it.key := by
      rw [hit]; rfl
    exact h.inj ha hb hka (hab ▸ hka)

theorem keys_cons_filter (l : List (String × V)) (k : String) :
    (l.filter (fun p => decide (p.1 ≠ k))).map Prod.fst
      = (l.map Prod.fst).filter (fun j => decide (j ≠ k)) := by
  rw [List.filter_map]
  rfl

theorem Get_isSome_iff {c : OrderCache V} (h : WF c) (k : String) :
    (c.Get k).1.isSome = true ↔ k ∈ c.keys := by
  by_cases hk : k ∈ c.keys
  · obtain ⟨v, hv⟩ := exists_view_of_mem_keys hk
    simp [(OrderCache.Get_hit h hv).1, hk]
  · simp [OrderCache.Get_miss h hk, hk]

theorem Get_after_Set {c : OrderCache V} (h : WF c) (k : String) (v : V) :
    ((c.Set k v).Get k).1 = some v := by
  have hwf := (WF_Set h k v).1
  have hmem : (k, v) ∈ (c.Set k v).view := by
    by_cases hk : k ∈ c.keys
    · rw [(OrderCache.Set_hit h hk v).2.1]
      exact List.mem_cons_self _ _
    · rw [(OrderCache.Set_miss h hk v).2.1]
      exact List.mem_cons_self _ _
  exact (OrderCache.Get_hit hwf hmem).1

/-- C5. For every cache state reached by `Set`/`Get` calls from a fresh cache (of
any capacity, full or not) and every identifier `k` already resident, `Set(k, v)`
evicts nothing: the index map is unchanged, so the same identifiers are resident
and the list keeps its length; `k` becomes the front (most recently used) entry
and the other identifiers keep their relative order; an immediately following
`Get(k)` returns `v`. -/
theorem C5_set_resident (C : Int) (calls : List (Call V)) (k : String) (v : V)
    (hk : (run (NewOrderCache V C) calls).contains k = true) :
    ((run (NewOrderCache V C) calls).Set k v).data = (run (NewOrderCache V C) calls).data
      ∧ (∀ j, ((run (NewOrderCache V C) calls).Set k v).contains j
            = (run (NewOrderCache V C) calls).contains j)
      ∧ ((run (NewOrderCache V C) calls).Set k v).eviction.length
          = (run (NewOrderCache V C) calls).eviction.length
      ∧ ((run (NewOrderCache V C) calls).Set k v).keys
          = k :: (run (NewOrderCache V C) calls).keys.filter (fun j => decide (j ≠ k))
      ∧ (((run (NewOrderCache V C) calls).Set k v).Get k).1 = some v := by
  have h := (WF_fresh_run (V := V) C calls).1
  have hmem := (h.contains_iff k).1 hk
  obtain ⟨hwf, hview, _, hdata⟩ := OrderCache.Set_hit h hmem v
  refine ⟨hdata, ?_, ?_, ?_, Get_after_Set h k v⟩
  · intro j
    unfold OrderCache.contains
    rw [hdata]
  · rw [← hwf.data_length, hdata, h.data_length]
  · unfold OrderCache.keys
    rw [hview, List.map_cons, keys_cons_filter]

theorem C5_set_resident_witness :
    (run (NewOrderCache Nat 2) [Call.set "a" 1, Call.set "b" 2]).contains "a" = true
      ∧ ((run (NewOrderCache Nat 2) [Call.set "a" 1, Call.set "b" 2]).Set "a" 7).keys
          = "a" :: (run (NewOrderCache Nat 2) [Call.set "a" 1, Call.set "b" 2]).keys.filter
              (fun j => decide (j ≠ "a"))
      ∧ (((run (NewOrderCache Nat 2) [Call.set "a" 1, Call.set "b" 2]).Set "a" 7).Get "a").1
          = some 7 :=
  ⟨by decide,
    (C5_set_resident 2 [Call.set "a" 1, Call.set "b" 2] "a" 7 (by decide)).2.2.2.1,
    (C5_set_resident 2 [Call.set "a" 1, Call.set "b" 2] "a" 7 (by decide)).2.2.2.2⟩

theorem Set_view_of_nonpos {c : OrderCache V} (h : WF c) (hC : c.capacity ≤ 0)
    (hlen : c.view.length ≤ 1) (k : String) (v : V) : (c.Set k v).view = [(k, v)] := by
  by_cases hk : k ∈ c.keys
  · rw [(OrderCache.Set_hit h hk v).2.1]
    congr 1
    match hv : c.view, hlen with
    | [], _ => rfl
    | [p], _ =>
      have : p.1 = k := by
        unfold OrderCache.keys at hk
        rw [hv] at hk
        simp at hk
        exact hk.symm
      simp [this]
  · rw [(OrderCache.Set_miss h hk v).2.1]
    have hfull : (c.eviction.length : Int) ≥ c.capacity := by omega
    rw [if_pos hfull]
    congr 1
    match hv : c.view, hlen with
    | [], _ => rfl
    | [p], _ => rfl

theorem view_len_step_of_nonpos {c : OrderCache V} (h : WF c) (hC : c.capacity ≤ 0)
    (hlen : c.view.length ≤ 1) (call : Call V) : (step c call).view.length ≤ 1 := by
  cases call with
  | set k v =>
    show (c.Set k v).view.length ≤ 1
    rw [Set_view_of_nonpos h hC hlen]
    simp
  | get k =>
    obtain ⟨hwf, _, hdata⟩ := WF_Get h k
    show (c.Get k).2.view.length ≤ 1
    rw [hwf.view_length, ← hwf.data_length, hdata, h.data_length, ← h.view_length]
    exact hlen

theorem view_len_run_of_nonpos {c : OrderCache V} (h : WF c) (hC : c.capacity ≤ 0)
    (hlen : c.view.length ≤ 1) (calls : List (Call V)) : (run c calls).view.length ≤ 1 := by
  induction calls generalizing c with
  | nil => exact hlen
  | cons call t ih =>
    have hs := WF_step h call
    exact ih hs.1 (hs.2 ▸ hC) (view_len_step_of_nonpos h hC hlen call)

theorem step_capacity_indep (c d : OrderCache V) (hh : c.heap = d.heap) (hd : c.data = d.data)
    (he : c.eviction = d.eviction) (hc : c.capacity ≤ 0) (hd1 : d.capacity = 1) (call : Call V) :
    (step c call).heap = (step d call).heap ∧ (step c call).data = (step d call).data
      ∧ (step c call).eviction = (step d call).eviction := by
  obtain ⟨ch, cd, ce, cc⟩ := c
  obtain ⟨dh, dd, de, dc⟩ := d
  simp only at hh hd he hc hd1
  subst hh hd he hd1
  cases call with
  | get k =>
    simp only [step, OrderCache.Get]
    cases mapIndex cd k <;> simp
  | set k v =>
    simp only [step, OrderCache.Set]
    cases mapIndex cd k with
    | some a => simp
    | none =>
      cases ce with
      | nil =>
        have h1 : ((([] : List Nat).length : Nat) : Int) ≥ cc := by simpa using hc
        simp [h1, OrderCache.removeOldest]
      | cons x t =>
        have h1 : (((x :: t).length : Nat) : Int) ≥ cc := by
          simp only [List.length_cons]; omega
        have h2 : (((x :: t).length : Nat) : Int) ≥ 1 := by
          simp only [List.length_cons]; omega
        simp only [h1, h2, if_true]
        simp [OrderCache.removeOldest]
        cases hb : Back (x :: t) with
        | none => simp
        | some b =>
          simp only [add_left_inj, and_self]
          rcases hx : ch[b]? with _ | item <;> simp

theorem run_capacity_indep {c d : OrderCache V} (hc0 : WF c) (hd0 : WF d)
    (hh : c.heap = d.heap) (hd : c.data = d.data) (he : c.eviction = d.eviction)
    (hc : c.capacity ≤ 0) (hd1 : d.capacity = 1) (calls : List (Call V)) :
    (run c calls).heap = (run d calls).heap ∧ (run c calls).data = (run d calls).data
      ∧ (run c calls).eviction = (run d calls).eviction := by
  induction calls generalizing c d with
  | nil => exact ⟨hh, hd, he⟩
  | cons call t ih =>
    obtain ⟨h1, h2, h3⟩ := step_capacity_indep c d hh hd he hc hd1 call
    have sc := WF_step hc0 call
    have sd := WF_step hd0 call
    exact ih sc.1 sd.1 h1 h2 h3 (by rw [sc.2]; exact hc) (by rw [sd.2]; exact hd1)

/-- C10. For every capacity `C ≤ 0` and every finite sequence of `Set`/`Get` calls
on a freshly constructed cache, after a further `Set(k, v)` the cache holds
exactly one entry, `k` with value `v`: the recency list and the index map have
one element, the only resident identifier is `k`, and an immediately following
`Get(k)` returns `v`.  A cache of capacity zero (or below) does not retain
nothing: its heap, index map and recency list are at every moment those of a
cache of capacity 1 on which the same calls were made. -/
theorem C10_nonpositive_capacity (C : Int) (hC : C ≤ 0) (calls : List (Call V))
    (k : String) (v : V) :
    ((run (NewOrderCache V C) calls).Set k v).view = [(k, v)]
      ∧ ((run (NewOrderCache V C) calls).Set k v).eviction.length = 1
      ∧ ((run (NewOrderCache V C) calls).Set k v).data.length = 1
      ∧ (∀ j, ((run (NewOrderCache V C) calls).Set k v).contains j = true ↔ j = k)
      ∧ (((run (NewOrderCache V C) calls).Set k v).Get k).1 = some v
      ∧ (run (NewOrderCache V C) calls).heap = (run (NewOrderCache V 1) calls).heap
      ∧ (run (NewOrderCache V C) calls).data = (run (NewOrderCache V 1) calls).data
      ∧ (run (NewOrderCache V C) calls).eviction = (run (NewOrderCache V 1) calls).eviction := by
  obtain ⟨h, hcap⟩ := WF_fresh_run (V := V) C calls
  have hlen := view_len_run_of_nonpos (WF_New V C) (c := NewOrderCache V C) hC
    (by simp [NewOrderCache, OrderCache.view]) calls
  have hview := Set_view_of_nonpos h (by rw [hcap]; exact hC) hlen k v
  have hwf := (WF_Set h k v).1
  have hl : ((run (NewOrderCache V C) calls).Set k v).eviction.length = 1 := by
    rw [← hwf.view_length, hview]
    rfl
  refine ⟨hview, hl, by rw [hwf.data_length, hl], ?_, Get_after_Set h k v,
    run_capacity_indep (WF_New V C) (WF_New V 1) rfl rfl rfl hC rfl calls⟩
  intro j
  rw [hwf.contains_iff]
  unfold OrderCache.keys
  rw [hview]
  simp

theorem C10_nonpositive_capacity_witness :
    (0 : Int) ≤ 0
      ∧ ((run (NewOrderCache Nat 0) [Call.set "a" 1, Call.get "a"]).Set "b" 2).view = [("b", 2)]
      ∧ (((run (NewOrderCache Nat 0) [Call.set "a" 1, Call.get "a"]).Set "b" 2).Get "b").1
          = some 2 :=
  ⟨by decide,
    (C10_nonpositive_capacity 0 (by decide) [Call.set "a" 1, Call.get "a"] "b" 2).1,
    (C10_nonpositive_capacity 0 (by decide) [Call.set "a" 1, Call.get "a"] "b" 2).2.2.2.2.1⟩

theorem setAll_append (c : OrderCache V) (l : List (String × V)) (p : String × V) :
    setAll c (l ++ [p]) = (setAll c l).Set p.1 p.2 := by
  unfold setAll
  rw [List.foldl_append]
  rfl

theorem dropLast_take_le {α : Type} (l : List α) (n : Nat) (h : n ≤ l.length) :
    (l.take n).dropLast = l.take (n - 1) := by
  rcases Nat.lt_or_eq_of_le h with h1 | h1
  · exact List.dropLast_take h1
  · rw [h1, List.take_length, List.dropLast_eq_take]

theorem setAll_view (C : Int) (hC : 1 ≤ C) (orders : List (String × V))
    (hd : (orders.map Prod.fst).Nodup) :
    WF (setAll (NewOrderCache V C) orders)
      ∧ (setAll (NewOrderCache V C) orders).capacity = C
      ∧ (setAll (NewOrderCache V C) orders).view = orders.reverse.take C.toNat := by
  induction orders using List.reverseRecOn with
  | nil => exact ⟨WF_New V C, rfl, by simp [setAll, NewOrderCache, OrderCache.view]⟩
  | append_singleton l p ih =>
    obtain ⟨k, v⟩ := p
    rw [List.map_append, List.nodup_append] at hd
    obtain ⟨hwf, hcap, hview⟩ := ih hd.1
    have hkl : k ∉ l.map Prod.fst := by
      intro hm
      exact hd.2.2 hm (by simp)
    have hk : k ∉ (setAll (NewOrderCache V C) l).keys := by
      unfold OrderCache.keys
      rw [hview]
      intro hm
      exact hkl ((((List.take_sublist _ _).map _).subset hm) |> fun h => by simpa using h)
    rw [setAll_append]
    obtain ⟨hwf1, hview1, hcap1⟩ := OrderCache.Set_miss hwf hk v
    refine ⟨hwf1, hcap1.trans hcap, ?_⟩
    show ((setAll (NewOrderCache V C) l).Set k v).view = _
    rw [hview1, hcap, ← hwf.view_length, hview, List.reverse_append, List.length_take,
      List.length_reverse]
    have hn : C.toNat = (C.toNat - 1) + 1 := by omega
    by_cases hfull : ((min C.toNat l.length : Nat) : Int) ≥ C
    · rw [if_pos hfull]
      have hle : C.toNat ≤ l.reverse.length := by rw [List.length_reverse]; omega
      rw [dropLast_take_le _ _ hle]
      conv_rhs => rw [hn]
      rfl
    · rw [if_neg hfull]
      have hlt : l.length < C.toNat := by omega
      rw [List.take_of_length_le (by rw [List.length_reverse]; omega)]
      rw [List.take_of_length_le (by simp; omega)]
      rfl

theorem mem_take_reverse_map {α β : Type} (f : α → β) (l : List α) (n : Nat) (b : β) :
    b ∈ (l.reverse.take n).map f
      ↔ b ∈ (l.map f).drop ((l.map f).length - min (l.map f).length n) := by
  have e : (l.map f).length - min (l.map f).length n = l.length - n := by
    rw [List.length_map]; omega
  rw [e, List.take_reverse, List.map_reverse, List.mem_reverse, List.map_drop]

/-- C1. For every capacity `C ≥ 1` and every list of orders with pairwise distinct
identifiers passed to `Set` in order on a freshly constructed cache, the
identifiers resident afterwards (those for which `Get` hits, equally those
indexed by the map) are exactly the last `min(n, C)` identifiers of the list,
and the recency list holds them most recent first.  In particular, when the
list has `C + 1` identifiers, its first identifier is absent (`Get` misses) and
all the others are present. -/
theorem C1_last_C_resident (C : Int) (hC : 1 ≤ C) (orders : List (String × V))
    (hd : (orders.map Prod.fst).Nodup) :
    (∀ k, ((setAll (NewOrderCache V C) orders).Get k).1.isSome = true
        ↔ k ∈ (orders.map Prod.fst).drop
            ((orders.map Prod.fst).length - min (orders.map Prod.fst).length C.toNat))
      ∧ (∀ k, (setAll (NewOrderCache V C) orders).contains k = true
        ↔ k ∈ (orders.map Prod.fst).drop
            ((orders.map Prod.fst).length - min (orders.map Prod.fst).length C.toNat))
      ∧ (setAll (NewOrderCache V C) orders).view = orders.reverse.take C.toNat
      ∧ (((orders.map Prod.fst).length : Int) = C + 1 →
          ∃ first rest, orders.map Prod.fst = first :: rest
            ∧ ((setAll (NewOrderCache V C) orders).Get first).1 = none
            ∧ ∀ k ∈ rest, ((setAll (NewOrderCache V C) orders).Get k).1.isSome = true) := by
  obtain ⟨hwf, _, hview⟩ := setAll_view C hC orders hd
  have hkeys : ∀ k, k ∈ (setAll (NewOrderCache V C) orders).keys
      ↔ k ∈ (orders.map Prod.fst).drop
            ((orders.map Prod.fst).length - min (orders.map Prod.fst).length C.toNat) := by
    intro k
    unfold OrderCache.keys
    rw [hview]
    exact mem_take_reverse_map _ _ _ _
  have hget : ∀ k, ((setAll (NewOrderCache V C) orders).Get k).1.isSome = true
        ↔ k ∈ (orders.map Prod.fst).drop
            ((orders.map Prod.fst).length - min (orders.map Prod.fst).length C.toNat) :=
    fun k => (Get_isSome_iff hwf k).trans (hkeys k)
  refine ⟨hget, fun k => (hwf.contains_iff k).trans (hkeys k), hview, ?_⟩
  intro hlen
  match hids : orders.map Prod.fst, hlen with
  | [], hlen => simp at hlen; omega
  | first :: rest, hlen =>
    rw [hids] at hget hd
    have hdrop : (first :: rest).length - min (first :: rest).length C.toNat = 1 := by
      simp only [List.length_cons] at hlen ⊢
      omega
    rw [hdrop] at hget
    simp only [List.drop_succ_cons, List.drop_zero] at hget
    refine ⟨first, rest, rfl, ?_, fun k hk => (hget k).2 hk⟩
    have hnot : ¬ ((setAll (NewOrderCache V C) orders).Get first).1.isSome = true := by
      rw [hget]
      exact (List.nodup_cons.1 hd).1
    simpa using hnot

theorem C1_last_C_resident_witness :
    (1 : Int) ≤ 2
      ∧ ([("a", 1), ("b", 2), ("c", 3)].map Prod.fst).Nodup
      ∧ (setAll (NewOrderCache Nat 2) [("a", 1), ("b", 2), ("c", 3)]).view
          = [("a", 1), ("b", 2), ("c", 3)].reverse.take (2 : Int).toNat
      ∧ ∀ k, ((setAll (NewOrderCache Nat 2) [("a", 1), ("b", 2), ("c", 3)]).Get k).1.isSome = true
        ↔ k ∈ ([("a", 1), ("b", 2), ("c", 3)].map Prod.fst).drop
            (([("a", 1), ("b", 2), ("c", 3)].map Prod.fst).length
              - min ([("a", 1), ("b", 2), ("c", 3)].map Prod.fst).length (2 : Int).toNat) :=
  ⟨by decide, by decide,
    (C1_last_C_resident 2 (by decide) [("a", 1), ("b", 2), ("c", 3)] (by decide)).2.2.1,
    (C1_last_C_resident 2 (by decide) [("a", 1), ("b", 2), ("c", 3)] (by decide)).1⟩

theorem sorted_touch (last : String → Nat) (now : Nat) (hle : ∀ k, last k ≤ now)
    (ks l1 : List String) (hs : ks.Pairwise (fun a b => last b < last a))
    (hsub : l1.Sublist ks) (k : String) (hk : k ∉ l1) :
    (k :: l1).Pairwise
      (fun a b => Function.update last k (now + 1) b < Function.update last k (now + 1) a) := by
  rw [List.pairwise_cons]
  constructor
  · intro j hj
    have hjk : j ≠ k := fun e => hk (e ▸ hj)
    rw [Function.update_same, Function.update_noteq hjk]
    exact Nat.lt_succ_of_le (hle j)
  · apply (hs.sublist hsub).imp_of_mem
    intro a b ha hb hab
    have hak : a ≠ k := fun e => hk (e ▸ ha)
    have hbk : b ≠ k := fun e => hk (e ▸ hb)
    rw [Function.update_noteq hak, Function.update_noteq hbk]
    exact hab

theorem keys_Set {c : OrderCache V} (h : WF c) (k : String) (v : V) :
    ∃ l1, (c.Set k v).keys = k :: l1 ∧ l1.Sublist c.keys ∧ k ∉ l1 := by
  by_cases hk : k ∈ c.keys
  · refine ⟨c.keys.filter (fun j => decide (j ≠ k)), ?_, List.filter_sublist _, ?_⟩
    · unfold OrderCache.keys
      rw [(OrderCache.Set_hit h hk v).2.1, List.map_cons, keys_cons_filter]
    · intro hm
      have := (List.mem_filter.1 hm).2
      simp at this
  · by_cases hfull : (c.eviction.length : Int) ≥ c.capacity
    · refine ⟨c.keys.dropLast, ?_, List.dropLast_sublist _, ?_⟩
      · unfold OrderCache.keys
        rw [(OrderCache.Set_miss h hk v).2.1, if_pos hfull, List.map_cons, List.map_dropLast]
      · exact fun hm => hk ((List.dropLast_sublist _).subset hm)
    · refine ⟨c.keys, ?_, List.Sublist.refl _, hk⟩
      unfold OrderCache.keys
      rw [(OrderCache.Set_miss h hk v).2.1, if_neg hfull, List.map_cons]

theorem keys_Get_hit {c : OrderCache V} (h : WF c) {k : String} (hk : k ∈ c.keys) :
    (c.Get k).2.keys = k :: c.keys.filter (fun j => decide (j ≠ k)) := by
  obtain ⟨v, hv⟩ := exists_view_of_mem_keys hk
  unfold OrderCache.keys
  rw [(OrderCache.Get_hit h hv).2.2.1, List.map_cons, keys_cons_filter]

theorem tick_inv {s : Clocked V} (h : ClockInv s) (call : Call V) :
    ClockInv (tick s call) ∧ (tick s call).cache = step s.cache call := by
  refine ⟨?_, by cases call <;> rfl⟩
  cases call with
  | set k v =>
    obtain ⟨l1, hkeys, hsub, hk⟩ := keys_Set h.wf k v
    refine ⟨(WF_Set h.wf k v).1, ?_, ?_⟩
    · intro j
      show Function.update s.last k (s.now + 1) j ≤ s.now + 1
      by_cases hj : j = k
      · rw [hj, Function.update_same]
      · rw [Function.update_noteq hj]
        exact Nat.le_succ_of_le (h.le_now j)
    · show (s.cache.Set k v).keys.Pairwise _
      rw [hkeys]
      exact sorted_touch s.last s.now h.le_now _ l1 h.sorted hsub k hk
  | get k =>
    by_cases hk : k ∈ s.cache.keys
    · have hsome := (Get_isSome_iff h.wf k).2 hk
      refine ⟨(WF_Get h.wf k).1, ?_, ?_⟩
      · intro j
        show (if (s.cache.Get k).1.isSome = true then Function.update s.last k (s.now + 1)
          else s.last) j ≤ s.now + 1
        rw [if_pos hsome]
        by_cases hj : j = k
        · rw [hj, Function.update_same]
        · rw [Function.update_noteq hj]
          exact Nat.le_succ_of_le (h.le_now j)
      · show (s.cache.Get k).2.keys.Pairwise
          (fun a b => (if (s.cache.Get k).1.isSome = true
              then Function.update s.last k (s.now + 1) else s.last) b
            < (if (s.cache.Get k).1.isSome = true
              then Function.update s.last k (s.now + 1) else s.last) a)
        rw [if_pos hsome, keys_Get_hit h.wf hk]
        refine sorted_touch s.last s.now h.le_now _ _ h.sorted (List.filter_sublist _) k ?_
        intro hm
        have := (List.mem_filter.1 hm).2
        simp at this
    · have hnone : ¬ (s.cache.Get k).1.isSome = true := fun e => hk ((Get_isSome_iff h.wf k).1 e)
      have hget := OrderCache.Get_miss h.wf hk
      refine ⟨(WF_Get h.wf k).1, ?_, ?_⟩
      · intro j
        show (if (s.cache.Get k).1.isSome = true then Function.update s.last k (s.now + 1)
          else s.last) j ≤ s.now + 1
        rw [if_neg hnone]
        exact Nat.le_succ_of_le (h.le_now j)
      · show (s.cache.Get k).2.keys.Pairwise
          (fun a b => (if (s.cache.Get k).1.isSome = true
              then Function.update s.last k (s.now + 1) else s.last) b
            < (if (s.cache.Get k).1.isSome = true
              then Function.update s.last k (s.now + 1) else s.last) a)
        rw [if_neg hnone, hget]
        exact h.sorted

theorem foldl_tick_inv {s : Clocked V} (h : ClockInv s) (calls : List (Call V)) :
    ClockInv (calls.foldl tick s) ∧ (calls.foldl tick s).cache = run s.cache calls := by
  induction calls generalizing s with
  | nil => exact ⟨h, rfl⟩
  | cons call t ih =>
    obtain ⟨hi, hc⟩ := tick_inv h call
    obtain ⟨hi2, hc2⟩ := ih hi
    refine ⟨hi2, ?_⟩
    rw [List.foldl_cons, hc2, hc]
    rfl

theorem lastTouched_sorted (C : Int) (calls : List (Call V)) :
    (run (NewOrderCache V C) calls).keys.Pairwise
      (fun a b => lastTouched V C calls b < lastTouched V C calls a) := by
  have h0 : ClockInv ({ cache := NewOrderCache V C, now := 0, last := fun _ => 0 } : Clocked V) :=
    ⟨WF_New V C, fun _ => Nat.le_refl _, by simp [NewOrderCache, OrderCache.keys, OrderCache.view]⟩
  obtain ⟨hi, hc⟩ := foldl_tick_inv h0 calls
  have := hi.sorted
  rw [hc] at this
  exact this

/-- C2. For every capacity `C ≥ 2` and every full cache state reached by `Set`/`Get`
calls from a fresh cache: if `Get(k)` is a hit and `Set(k2, v)` is then called for
an identifier `k2` that is not resident, then `k` is still resident afterwards,
and exactly one identifier `e` has been removed; `e` is not `k` and is the one
least recently touched among the resident identifiers other than `k` (its latest
touching call is older than that of every other one). -/
theorem C2_get_protects (C : Int) (hC : 2 ≤ C) (calls : List (Call V)) (k k2 : String) (v : V)
    (hfull : ((run (NewOrderCache V C) calls).eviction.length : Int) = C)
    (hhit : ((run (NewOrderCache V C) calls).Get k).1.isSome = true)
    (hnew : (run (NewOrderCache V C) calls).contains k2 = false) :
    ((((run (NewOrderCache V C) calls).Get k).2).Set k2 v).contains k = true
      ∧ ∃ e, e ≠ k
        ∧ (run (NewOrderCache V C) calls).contains e = true
        ∧ ((((run (NewOrderCache V C) calls).Get k).2).Set k2 v).contains e = false
        ∧ (∀ j, (run (NewOrderCache V C) calls).contains j = true → j ≠ e →
            ((((run (NewOrderCache V C) calls).Get k).2).Set k2 v).contains j = true)
        ∧ (∀ j, (run (NewOrderCache V C) calls).contains j = true → j ≠ k → j ≠ e →
            lastTouched V C calls e < lastTouched V C calls j) := by
  obtain ⟨h, hcap⟩ := WF_fresh_run (V := V) C calls
  have hsorted := lastTouched_sorted (V := V) C calls
  generalize run (NewOrderCache V C) calls = s at *
  have hk : k ∈ s.keys := (Get_isSome_iff h k).1 hhit
  have hk2 : k2 ∉ s.keys := by
    intro hm
    rw [(h.contains_iff k2).2 hm] at hnew
    exact Bool.noConfusion hnew
  obtain ⟨hwf1, hcap1, hdata1⟩ := WF_Get h k
  have hkeys1 := keys_Get_hit h hk
  have hlen1 : (s.Get k).2.eviction.length = s.eviction.length := by
    rw [← hwf1.data_length, hdata1, h.data_length]
  have hk21 : k2 ∉ (s.Get k).2.keys := by
    rw [hkeys1]
    intro hm
    rcases List.mem_cons.1 hm with h1 | h1
    · exact hk2 (h1 ▸ hk)
    · exact hk2 (List.mem_filter.1 h1).1
  obtain ⟨hwf2, hview2, _⟩ := OrderCache.Set_miss hwf1 hk21 v
  have hfull1 : ((s.Get k).2.eviction.length : Int) ≥ (s.Get k).2.capacity := by
    rw [hlen1, hcap1, hcap, hfull]
  rw [if_pos hfull1] at hview2
  have hkeys2 : ((s.Get k).2.Set k2 v).keys
      = k2 :: (k :: s.keys.filter (fun j => decide (j ≠ k))).dropLast := by
    unfold OrderCache.keys
    rw [hview2, List.map_cons, List.map_dropLast]
    congr 2
  have hrestlen : (s.keys.filter (fun j => decide (j ≠ k))).length + 1 = s.eviction.length := by
    have : ((s.Get k).2.keys).length = (s.Get k).2.eviction.length := by
      unfold OrderCache.keys
      rw [List.length_map, hwf1.view_length]
    rw [hkeys1, hlen1, List.length_cons] at this
    exact this
  have hne : s.keys.filter (fun j => decide (j ≠ k)) ≠ [] := by
    intro e
    rw [e] at hrestlen
    simp at hrestlen
    omega
  rcases List.eq_nil_or_concat (s.keys.filter (fun j => decide (j ≠ k))) with e0 | ⟨r, e, hre0⟩
  · exact absurd e0 hne
  have hre : s.keys.filter (fun j => decide (j ≠ k)) = r ++ [e] := by
    rw [hre0, List.concat_eq_append]
  have hdrop : (k :: s.keys.filter (fun j => decide (j ≠ k))).dropLast = k :: r := by
    rw [hre, ← List.cons_append, List.dropLast_concat]
  rw [hdrop] at hkeys2
  have hmem2 : ∀ j, ((s.Get k).2.Set k2 v).contains j = true ↔ (j = k2 ∨ j = k ∨ j ∈ r) := by
    intro j
    rw [hwf2.contains_iff, hkeys2]
    simp
  have he_rest : e ∈ s.keys.filter (fun j => decide (j ≠ k)) := by rw [hre]; simp
  have he_keys : e ∈ s.keys := (List.mem_filter.1 he_rest).1
  have he_k : e ≠ k := by simpa using (List.mem_filter.1 he_rest).2
  have hrnd : (r ++ [e]).Nodup := hre ▸ (h.nodup_keys.sublist (List.filter_sublist _))
  have he_r : e ∉ r := by
    intro hm
    have := List.disjoint_of_nodup_append hrnd hm
    simp at this
  have hrsorted : (r ++ [e]).Pairwise (fun a b => lastTouched V C calls b < lastTouched V C calls a) :=
    hre ▸ (hsorted.sublist (List.filter_sublist _))
  have hin_r : ∀ j, j ∈ s.keys → j ≠ k → j ≠ e → j ∈ r := by
    intro j hj hjk hje
    have : j ∈ r ++ [e] := by
      rw [← hre, List.mem_filter]
      exact ⟨hj, by simpa using hjk⟩
    rcases List.mem_append.1 this with h1 | h1
    · exact h1
    · exact absurd (by simpa using h1) hje
  refine ⟨(hmem2 k).2 (Or.inr (Or.inl rfl)), e, he_k, (h.contains_iff e).2 he_keys, ?_, ?_, ?_⟩
  · have : ¬ (((s.Get k).2.Set k2 v).contains e = true) := by
      rw [hmem2]
      rintro (h1 | h1 | h1)
      · exact hk2 (h1 ▸ he_keys)
      · exact he_k h1
      · exact he_r h1
    simpa using this
  · intro j hj hje
    rw [hmem2]
    by_cases hjk : j = k
    · exact Or.inr (Or.inl hjk)
    · exact Or.inr (Or.inr (hin_r j ((h.contains_iff j).1 hj) hjk hje))
  · intro j hj hjk hje
    have hjr := hin_r j ((h.contains_iff j).1 hj) hjk hje
    exact (List.pairwise_append.1 hrsorted).2.2 j hjr e (by simp)

theorem C2_get_protects_witness :
    (2 : Int) ≤ 3
      ∧ ((run (NewOrderCache Nat 3)
            [Call.set "a" 1, Call.set "b" 2, Call.set "c" 3]).eviction.length : Int) = 3
      ∧ ((run (NewOrderCache Nat 3)
            [Call.set "a" 1, Call.set "b" 2, Call.set "c" 3]).Get "a").1.isSome = true
      ∧ (run (NewOrderCache Nat 3)
            [Call.set "a" 1, Call.set "b" 2, Call.set "c" 3]).contains "d" = false
      ∧ ∃ e, e ≠ "a"
        ∧ (run (NewOrderCache Nat 3)
            [Call.set "a" 1, Call.set "b" 2, Call.set "c" 3]).contains e = true
        ∧ ((((run (NewOrderCache Nat 3)
            [Call.set "a" 1, Call.set "b" 2, Call.set "c" 3]).Get "a").2).Set "d" 4).contains e
            = false
        ∧ (∀ j, (run (NewOrderCache Nat 3)
              [Call.set "a" 1, Call.set "b" 2, Call.set "c" 3]).contains j = true →
            j ≠ e →
            ((((run (NewOrderCache Nat 3)
              [Call.set "a" 1, Call.set "b" 2, Call.set "c" 3]).Get "a").2).Set "d" 4).contains j
              = true)
        ∧ (∀ j, (run (NewOrderCache Nat 3)
              [Call.set "a" 1, Call.set "b" 2, Call.set "c" 3]).contains j = true →
            j ≠ "a" → j ≠ e →
            lastTouched Nat 3 [Call.set "a" 1, Call.set "b" 2, Call.set "c" 3] e
              < lastTouched Nat 3 [Call.set "a" 1, Call.set "b" 2, Call.set "c" 3] j) :=
  ⟨by decide, by decide, by decide, by decide,
    (C2_get_protects 3 (by decide) [Call.set "a" 1, Call.set "b" 2, Call.set "c" 3] "a" "d" 4
      (by decide) (by decide) (by decide)).2⟩

end cache

namespace kafka

open models cache

theorem retryLoop_spec (env : Env) (order : Order) :
    ∀ (n attempt delay : Nat) (w : World),
      ((retryLoop env order n attempt delay w).1 = none
        ∧ ∃ pre, (retryLoop env order n attempt delay w).2.trace
              = w.trace ++ pre ++ [.SaveOrder order true, .CacheSet order.OrderUID order]
            ∧ (∀ e ∈ pre, e.quiet = true)
            ∧ (retryLoop env order n attempt delay w).2.cache
                = w.cache.Set order.OrderUID order)
      ∨ ((retryLoop env order n attempt delay w).1 ≠ none
        ∧ ∃ evs, (retryLoop env order n attempt delay w).2.trace = w.trace ++ evs
            ∧ (∀ e ∈ evs, e.quiet = true)
            ∧ (retryLoop env order n attempt delay w).2.cache = w.cache) := by
  intro n
  induction n with
  | zero =>
    intro attempt delay w
    right
    exact ⟨by simp [retryLoop], [], by simp [retryLoop], by simp, rfl⟩
  | succ n ih =>
    intro attempt delay w
    by_cases hok : env.SaveOrder w.saves order = true
    · left
      refine ⟨by simp [retryLoop, hok], [], ?_, by simp, by simp [retryLoop, hok]⟩
      simp [retryLoop, hok]
    · have hf : env.SaveOrder w.saves order = false := by simpa using hok
      by_cases hmax : attempt = maxAttempts
      · right
        refine ⟨by simp [retryLoop, hf, hmax], [.SaveOrder order false], ?_, ?_, ?_⟩
        · simp [retryLoop, hf, hmax]
        · simp [Event.quiet]
        · simp [retryLoop, hf, hmax]
      · by_cases hdone : env.Done w.selects = true
        · right
          refine ⟨by simp [retryLoop, hf, hmax, hdone],
            [.SaveOrder order false, .Done], ?_, ?_, ?_⟩
          · simp [retryLoop, hf, hmax, hdone]
          · simp [Event.quiet]
          · simp [retryLoop, hf, hmax, hdone]
        · have hnd : env.Done w.selects = false := by simpa using hdone
          have hrec : retryLoop env order (n + 1) attempt delay w
              = retryLoop env order n (attempt + 1) (delay * 2)
                  { cache := w.cache, saves := w.saves + 1, selects := w.selects + 1
                    trace := w.trace ++ [.SaveOrder order false] ++ [.After delay] } := by
            simp [retryLoop, hf, hmax, hnd]
          rw [hrec]
          rcases ih (attempt + 1) (delay * 2)
              { cache := w.cache, saves := w.saves + 1, selects := w.selects + 1
                trace := w.trace ++ [.SaveOrder order false] ++ [.After delay] } with
            ⟨h1, pre, htr, hq, hc⟩ | ⟨h1, evs, htr, hq, hc⟩
          · left
            refine ⟨h1, [.SaveOrder order false, .After delay] ++ pre, ?_, ?_, hc⟩
            · rw [htr]
              simp
            · intro e he
              rcases List.mem_append.1 he with h2 | h2
              · simp at h2
                rcases h2 with h2 | h2 <;> simp [h2, Event.quiet]
              · exact hq e h2
          · right
            refine ⟨h1, [.SaveOrder order false, .After delay] ++ evs, ?_, ?_, hc⟩
            · rw [htr]
              simp
            · intro e he
              rcases List.mem_append.1 he with h2 | h2
              · simp at h2
                rcases h2 with h2 | h2 <;> simp [h2, Event.quiet]
              · exact hq e h2

theorem handleMessage_undecodable (env : Env) (m : Message) (w : World)
    (h : env.Unmarshal m.Value = none) : handleMessage env m w = commitMessage m w := by
  unfold handleMessage
  rw [h]

theorem handleMessage_no_uid (env : Env) (m : Message) (w : World) (order : Order)
    (h : env.Unmarshal m.Value = some order) (hid : order.OrderUID = "") :
    handleMessage env m w = commitMessage m w := by
  unfold handleMessage
  rw [h]
  simp only [hid, if_true]

theorem handleMessage_saved (env : Env) (m : Message) (w : World) (order : Order)
    (h : env.Unmarshal m.Value = some order) (hid : order.OrderUID ≠ "")
    (hs : (saveOrderWithRetry env order w).1 = none) :
    handleMessage env m w = commitMessage m (saveOrderWithRetry env order w).2 := by
  unfold handleMessage
  rw [h]
  simp only [hid, if_false]
  rcases hres : saveOrderWithRetry env order w with ⟨r, w1⟩
  rw [hres] at hs
  simp only at hs
  subst hs
  rfl

theorem handleMessage_failed (env : Env) (m : Message) (w : World) (order : Order)
    (h : env.Unmarshal m.Value = some order) (hid : order.OrderUID ≠ "")
    (hs : (saveOrderWithRetry env order w).1 ≠ none) :
    handleMessage env m w = (saveOrderWithRetry env order w).2 := by
  unfold handleMessage
  rw [h]
  simp only [hid, if_false]
  rcases hres : saveOrderWithRetry env order w with ⟨r, w1⟩
  rw [hres] at hs
  cases r with
  | none => exact absurd rfl hs
  | some e => rfl

/-- C7. While the consumer processes one message, exactly one of three things
happens.  (a) The payload decodes to a record with a non-empty identifier and
`saveOrderWithRetry` returns nil: the events of the processing end with a
successful `SaveOrder` of the record, then the cache `Set` of that same record,
then the acknowledgement, and every event before them is a failed `SaveOrder`
or a wait; the cache is the old one after that single `Set`.  (b) The payload
decodes to such a record and `saveOrderWithRetry` returns an error (retries
exhausted or cancellation during a wait): no successful `SaveOrder`, no cache
`Set` and no acknowledgement happen, and the cache is left unchanged.  (c) The
payload does not decode or carries no identifier: the only event is the
acknowledgement, and the cache is left unchanged.  So the cache is written only
after a successful `SaveOrder` of the same record, and a message whose record
is written is acknowledged only after that write. -/
theorem C7_store_then_cache_then_ack (env : Env) (m : Message) (w : World) :
    (∃ order, env.Unmarshal m.Value = some order ∧ order.OrderUID ≠ ""
      ∧ (saveOrderWithRetry env order w).1 = none
      ∧ ∃ pre, (handleMessage env m w).trace
            = w.trace ++ pre
                ++ [.SaveOrder order true, .CacheSet order.OrderUID order, .CommitMessages m]
          ∧ (∀ e ∈ pre, e.quiet = true)
          ∧ (handleMessage env m w).cache = w.cache.Set order.OrderUID order)
    ∨ (∃ order, env.Unmarshal m.Value = some order ∧ order.OrderUID ≠ ""
      ∧ (saveOrderWithRetry env order w).1 ≠ none
      ∧ ∃ evs, (handleMessage env m w).trace = w.trace ++ evs
          ∧ (∀ e ∈ evs, e.quiet = true)
          ∧ (saveOrderWithRetry env order w).2.cache = w.cache
          ∧ (handleMessage env m w).cache = w.cache)
    ∨ ((env.Unmarshal m.Value = none
        ∨ ∃ order, env.Unmarshal m.Value = some order ∧ order.OrderUID = "")
      ∧ (handleMessage env m w).trace = w.trace ++ [.CommitMessages m]
      ∧ (handleMessage env m w).cache = w.cache) := by
  cases hdec : env.Unmarshal m.Value with
  | none =>
    right; right
    rw [handleMessage_undecodable env m w hdec]
    exact ⟨Or.inl rfl, rfl, rfl⟩
  | some order =>
    by_cases hid : order.OrderUID = ""
    · right; right
      rw [handleMessage_no_uid env m w order hdec hid]
      exact ⟨Or.inr ⟨order, rfl, hid⟩, rfl, rfl⟩
    · have hspec := retryLoop_spec env order maxAttempts 1 Second w
      have hfold : retryLoop env order maxAttempts 1 Second w
          = saveOrderWithRetry env order w := rfl
      rw [hfold] at hspec
      rcases hspec with ⟨h1, pre, htr, hq, hc⟩ | ⟨h1, evs, htr, hq, hc⟩
      · left
        have hh := handleMessage_saved env m w order hdec hid h1
        refine ⟨order, rfl, hid, h1, pre, ?_, hq, ?_⟩
        · rw [hh]
          show (saveOrderWithRetry env order w).2.trace ++ [Event.CommitMessages m] = _
          rw [htr]
          simp
        · rw [hh]
          exact hc
      · right; left
        have hh := handleMessage_failed env m w order hdec hid h1
        exact ⟨order, rfl, hid, h1, evs, by rw [hh, htr], hq, hc, by rw [hh, hc]⟩

theorem C7_store_then_cache_then_ack_witness :
    (saveOrderWithRetry failingOnce { OrderUID := "x", rest := "r" } World.init).1 = none
      ∧ (handleMessage failingOnce (Message.mk 0 "payload") World.init).trace
          = [.SaveOrder { OrderUID := "x", rest := "r" } false, .After Second,
             .SaveOrder { OrderUID := "x", rest := "r" } true,
             .CacheSet "x" { OrderUID := "x", rest := "r" },
             .CommitMessages (Message.mk 0 "payload")]
      ∧ ∃ order, failingOnce.Unmarshal (Message.mk 0 "payload").Value = some order
          ∧ order.OrderUID ≠ ""
          ∧ ∃ pre, (handleMessage failingOnce (Message.mk 0 "payload") World.init).trace
                = World.init.trace ++ pre
                    ++ [.SaveOrder order true, .CacheSet order.OrderUID order,
                        .CommitMessages (Message.mk 0 "payload")]
              ∧ (∀ e ∈ pre, e.quiet = true)
              ∧ (handleMessage failingOnce (Message.mk 0 "payload") World.init).cache
                  = World.init.cache.Set order.OrderUID order := by
  refine ⟨by decide, by decide, ?_⟩
  rcases C7_store_then_cache_then_ack failingOnce (Message.mk 0 "payload") World.init with
    ⟨order, hdec, hid, _, h⟩ | ⟨order, hdec, _, h1, _⟩ | ⟨hc, _⟩
  · exact ⟨order, hdec, hid, h⟩
  · exfalso
    have ho : order = { OrderUID := "x", rest := "r" } := (Option.some.inj hdec).symm
    subst ho
    exact h1 (by decide)
  · exfalso
    rcases hc with hc | ⟨order, hdec, hid⟩
    · exact Option.noConfusion hc
    · have ho : order = { OrderUID := "x", rest := "r" } := (Option.some.inj hdec).symm
      subst ho
      exact absurd hid (by decide)

/-- C8, as stated, fails: when every `SaveOrder` call fails and the context is never
cancelled, `saveOrderWithRetry` makes 5 attempts but waits only four times, for
1, 2, 4 and 8 seconds; there is no wait of 16 seconds. -/
theorem C8_no_fifth_wait :
    attempts (saveOrderWithRetry alwaysFailing { OrderUID := "x", rest := "r" } World.init).2.trace
        = 5
      ∧ waits (saveOrderWithRetry alwaysFailing { OrderUID := "x", rest := "r" } World.init).2.trace
        = [1 * Second, 2 * Second, 4 * Second, 8 * Second]
      ∧ waits (saveOrderWithRetry alwaysFailing { OrderUID := "x", rest := "r" } World.init).2.trace
        ≠ [1 * Second, 2 * Second, 4 * Second, 8 * Second, 16 * Second] := by
  decide

/-- C8, amended. When every `SaveOrder` call for the record of a message fails and
no cancellation occurs, `saveOrderWithRetry` makes exactly 5 attempts, separated
by four waits of 1, 2, 4 and 8 seconds in that order (no wait follows the fifth
attempt); it returns the error of exhausted attempts and leaves the cache
unchanged; `Run` then does not acknowledge the message and proceeds to fetch
the next message: the event that follows the fifth failed attempt is the
`FetchMessage` of the next iteration, whose message is then processed. -/
theorem C8_five_attempts_four_waits (env : Env) (order : Order) (w : World)
    (hfail : ∀ n, env.SaveOrder n order = false) (hdone : ∀ n, env.Done n = false) :
    (saveOrderWithRetry env order w).1 = some .maxAttemptsExceeded
      ∧ (saveOrderWithRetry env order w).2.trace
          = w.trace ++ [.SaveOrder order false, .After (1 * Second),
                        .SaveOrder order false, .After (2 * Second),
                        .SaveOrder order false, .After (4 * Second),
                        .SaveOrder order false, .After (8 * Second),
                        .SaveOrder order false]
      ∧ attempts [.SaveOrder order false, .After (1 * Second),
                  .SaveOrder order false, .After (2 * Second),
                  .SaveOrder order false, .After (4 * Second),
                  .SaveOrder order false, .After (8 * Second),
                  .SaveOrder order false] = 5
      ∧ waits [.SaveOrder order false, .After (1 * Second),
               .SaveOrder order false, .After (2 * Second),
               .SaveOrder order false, .After (4 * Second),
               .SaveOrder order false, .After (8 * Second),
               .SaveOrder order false] = [1 * Second, 2 * Second, 4 * Second, 8 * Second]
      ∧ (saveOrderWithRetry env order w).2.cache = w.cache
      ∧ ∀ (m m2 : Message) (rest : List Iteration),
          env.Unmarshal m.Value = some order → order.OrderUID ≠ "" →
          ∃ w2, Run env (.fetched m :: .fetched m2 :: rest) w
                = Run env rest (handleMessage env m2 w2)
            ∧ w2.trace
                = w.trace ++ [.FetchMessage (some m),
                              .SaveOrder order false, .After (1 * Second),
                              .SaveOrder order false, .After (2 * Second),
                              .SaveOrder order false, .After (4 * Second),
                              .SaveOrder order false, .After (8 * Second),
                              .SaveOrder order false,
                              .FetchMessage (some m2)]
            ∧ w2.cache = w.cache := by
  have hres : ∀ w0 : World, saveOrderWithRetry env order w0
      = (some .maxAttemptsExceeded,
          { cache := w0.cache, saves := w0.saves + 5, selects := w0.selects + 4
            trace := w0.trace ++ [.SaveOrder order false, .After (1 * Second),
                        .SaveOrder order false, .After (2 * Second),
                        .SaveOrder order false, .After (4 * Second),
                        .SaveOrder order false, .After (8 * Second),
                        .SaveOrder order false] }) := by
    intro w0
    simp [saveOrderWithRetry, retryLoop, maxAttempts, hfail, hdone, Second]
  refine ⟨by rw [hres], by rw [hres], by simp [attempts], by simp [waits], by rw [hres], ?_⟩
  intro m m2 rest hdec hid
  have hfailed : (saveOrderWithRetry env order
      { w with trace := w.trace ++ [.FetchMessage (some m)] }).1 ≠ none := by
    rw [hres]
    simp
  have hh := handleMessage_failed env m { w with trace := w.trace ++ [.FetchMessage (some m)] }
    order hdec hid hfailed
  refine ⟨{ (saveOrderWithRetry env order
      { w with trace := w.trace ++ [.FetchMessage (some m)] }).2 with
      trace := (saveOrderWithRetry env order
        { w with trace := w.trace ++ [.FetchMessage (some m)] }).2.trace
          ++ [.FetchMessage (some m2)] }, ?_, ?_, ?_⟩
  · show Run env rest (handleMessage env m2
        { handleMessage env m { w with trace := w.trace ++ [.FetchMessage (some m)] } with
          trace := (handleMessage env m
            { w with trace := w.trace ++ [.FetchMessage (some m)] }).trace
              ++ [.FetchMessage (some m2)] }) = _
    rw [hh]
  · rw [hres]
    simp
  · rw [hres]

theorem C8_five_attempts_four_waits_witness :
    (∀ n, alwaysFailing.SaveOrder n { OrderUID := "x", rest := "r" } = false)
      ∧ (∀ n, alwaysFailing.Done n = false)
      ∧ (saveOrderWithRetry alwaysFailing { OrderUID := "x", rest := "r" } World.init).1
          = some .maxAttemptsExceeded
      ∧ (saveOrderWithRetry alwaysFailing { OrderUID := "x", rest := "r" } World.init).2.trace
          = World.init.trace
              ++ [.SaveOrder { OrderUID := "x", rest := "r" } false, .After (1 * Second),
                  .SaveOrder { OrderUID := "x", rest := "r" } false, .After (2 * Second),
                  .SaveOrder { OrderUID := "x", rest := "r" } false, .After (4 * Second),
                  .SaveOrder { OrderUID := "x", rest := "r" } false, .After (8 * Second),
                  .SaveOrder { OrderUID := "x", rest := "r" } false]
      ∧ ∃ w2, Run alwaysFailing
                [.fetched (Message.mk 0 "first"), .fetched (Message.mk 1 "second")] World.init
              = Run alwaysFailing [] (handleMessage alwaysFailing (Message.mk 1 "second") w2)
          ∧ w2.trace
              = World.init.trace
                ++ [.FetchMessage (some (Message.mk 0 "first")),
                    .SaveOrder { OrderUID := "x", rest := "r" } false, .After (1 * Second),
                    .SaveOrder { OrderUID := "x", rest := "r" } false, .After (2 * Second),
                    .SaveOrder { OrderUID := "x", rest := "r" } false, .After (4 * Second),
                    .SaveOrder { OrderUID := "x", rest := "r" } false, .After (8 * Second),
                    .SaveOrder { OrderUID := "x", rest := "r" } false,
                    .FetchMessage (some (Message.mk 1 "second"))]
          ∧ w2.cache = World.init.cache :=
  ⟨fun _ => rfl, fun _ => rfl,
    (C8_five_attempts_four_waits alwaysFailing { OrderUID := "x", rest := "r" } World.init
      (fun _ => rfl) (fun _ => rfl)).1,
    (C8_five_attempts_four_waits alwaysFailing { OrderUID := "x", rest := "r" } World.init
      (fun _ => rfl) (fun _ => rfl)).2.1,
    (C8_five_attempts_four_waits alwaysFailing { OrderUID := "x", rest := "r" } World.init
      (fun _ => rfl) (fun _ => rfl)).2.2.2.2.2 (Message.mk 0 "first") (Message.mk 1 "second") []
      rfl (by decide)⟩

end kafka

namespace api

open models cache storage

/-- C6 fails on the code. For the non-empty identifier `x`, absent from an empty
cache and from an empty (reachable) store, `DB.GetOrder` returns the zero order
with a nil error, so `GetOrderByUID` answers 200 with the zero order instead of
404, and stores the zero order in the cache under `x`. -/
theorem C6_absent_order_answers_200 :
    (NewOrderCache Order 1000).contains "x" = false
      ∧ (DB.mk [] true).rows.find? (fun o => decide (o.OrderUID = "x")) = none
      ∧ (GetOrderByUID (DB.mk [] true) (NewOrderCache Order 1000) "x").1
          = { status := 200, body := some Order.zero }
      ∧ (GetOrderByUID (DB.mk [] true) (NewOrderCache Order 1000) "x").1.status ≠ StatusNotFound
      ∧ (GetOrderByUID (DB.mk [] true) (NewOrderCache Order 1000) "x").2.contains "x" = true
      ∧ ((GetOrderByUID (DB.mk [] true) (NewOrderCache Order 1000) "x").2.Get "x").1
          = some Order.zero := by
  decide

end api

namespace cache

/-- C9 fails on the code. `Get` takes only the shared lock (`RLock`), under which
two callers may run at the same time, although it mutates the recency list (here
it moves `a` in front of `b`); only `Set` takes the exclusive lock. -/
theorem C9_Get_mutates_under_RLock :
    acquires .Get = .RLock
      ∧ mayOverlap (acquires .Get) (acquires .Get) = true
      ∧ acquires .Set = .Lock
      ∧ mayOverlap (acquires .Set) (acquires .Get) = false
      ∧ (run (NewOrderCache Nat 2) [Call.set "a" 1, Call.set "b" 2]).eviction = [1, 0]
      ∧ ((run (NewOrderCache Nat 2) [Call.set "a" 1, Call.set "b" 2]).Get "a").2.eviction
          = [0, 1] := by
  decide

end cache
